import Mathlib

/-! Verification development for the medit media-editing task engine.

Shallow embedding of the B-roll slot planner and plan repairer
(src/services/gemini.py), the stock-media fallback search
(src/services/stock.py) and the task-graph executor
(src/services/executor.py).

Modelling conventions:
* Python floats are modelled as rationals; `round(x, 1)` is modelled as
  round-half-up to one decimal (`roundTo1`).  Python rounds binary floats
  half-to-even, which agrees with this model away from exact `.05` boundary
  points; all concrete inputs used below stay away from those points.
* External effects (FFmpeg invocations, stock-media downloads, the file
  system) are modelled by an explicit environment (`Env`, `StockEnv`) and an
  explicit path-to-content map (the disk); an FFmpeg invocation is modelled
  by the success bit and exit code the environment assigns to the task
  position, since only those influence the engine's control flow.  The
  command strings assembled for FFmpeg are not modelled: no claim depends on
  them.
* Python dicts holding tasks are modelled by `RTask` with absent keys as
  `none`; `task["k"]` accesses that can raise `KeyError` are modelled in the
  `Except String` monad, the error value naming the missing key.
-/

/-- Python `round(x, 1)`: rounding to one decimal place, modelled as
round-half-up on rationals. -/
def roundTo1 (x : ℚ) : ℚ := ((round (10 * x) : ℤ) : ℚ) / 10

/-- `q` is a multiple of one tenth (all the default B-roll rule values are). -/
abbrev Tenth (q : ℚ) : Prop := (10 * q).den = 1

/-- The B-roll rule set of src/services/gemini.py (`BROLL_RULES` keys). -/
structure Rules where
  max_inserts : Nat
  min_duration : ℚ
  max_duration : ℚ
  min_topic_sec : ℚ
  avoid_first : ℚ
  avoid_last : ℚ
  min_gap : ℚ
deriving DecidableEq

/-- The default rule set `BROLL_RULES` of src/services/gemini.py. -/
def BROLL_RULES : Rules :=
  { max_inserts := 3, min_duration := 4, max_duration := 5, min_topic_sec := 5,
    avoid_first := 6, avoid_last := 8, min_gap := 10 }

/-- Hypotheses on a rule set under which the slot invariants are provable:
every timing value is a multiple of 0.1 (true of `BROLL_RULES`), durations are
ordered and nonnegative, the gap is nonnegative. -/
abbrev RulesOk (r : Rules) : Prop :=
  Tenth r.min_duration ∧ Tenth r.max_duration ∧ Tenth r.avoid_first ∧
  Tenth r.min_gap ∧ 0 ≤ r.min_duration ∧ r.min_duration ≤ r.max_duration ∧
  0 ≤ r.min_gap

/-- A transcript segment `{start, end, text}` (field `end` is called `stop`
because `end` is a Lean keyword). -/
structure Segment where
  start : ℚ
  stop : ℚ
  text : String
deriving DecidableEq

/-- A raw B-roll slot proposal as consumed by `_validate_and_fix_slots`:
`start` is required, `end` (here `stop?`) may be absent.  The metadata keys
(`topic`, `context_text`, `query`, `alternative_queries`) are carried along
unchanged by the Python code and inspected by no claim, so they are omitted. -/
structure RawSlot where
  start : ℚ
  stop? : Option ℚ := none
deriving DecidableEq

/-- A validated B-roll slot (only the timing fields, see `RawSlot`). -/
structure Slot where
  start : ℚ
  stop : ℚ
deriving DecidableEq

/-- Stable insertion of a raw slot into a list sorted by `start` (keeps
earlier elements first on ties, like Python's stable `sorted`). -/
def insertByStart (x : RawSlot) : List RawSlot → List RawSlot
  | [] => [x]
  | y :: ys => if y.start ≤ x.start then y :: insertByStart x ys else x :: y :: ys

/-- Stable sort by `start`, modelling `sorted(raw_slots, key=lambda s: s["start"])`. -/
def sortByStart (l : List RawSlot) : List RawSlot := l.foldr insertByStart []

/-- One iteration of the `_validate_and_fix_slots` loop body
(src/services/gemini.py, lines 208-237) on the slot under consideration:
`none` models `continue` (slot discarded), `some s` models appending `s` to
`valid_slots` (the accumulator is consulted only for its last element).
`vafEnd2` is the end-time computation of lines 210-224 (absent or zero `end`
defaults to `start + target`; the duration is then clamped to
`[min_duration, max_duration]`). -/
def vafEnd2 (rules : Rules) (avoid_end target : ℚ) (slot : RawSlot) : ℚ :=
  let start0 := slot.start
  let end0 := match slot.stop? with
    | some e => if e = 0 then roundTo1 (start0 + target) else e
    | none => roundTo1 (start0 + target)
  let start1 := max start0 rules.avoid_first
  let end1 := min end0 avoid_end
  let dur := end1 - start1
  if dur < rules.min_duration then roundTo1 (start1 + rules.min_duration)
  else if rules.max_duration < dur then roundTo1 (start1 + rules.max_duration)
  else end1

def vafStep (rules : Rules) (avoid_end target : ℚ) (acc : List Slot)
    (slot : RawSlot) : Option Slot :=
  let start1 := max slot.start rules.avoid_first
  let end2 := vafEnd2 rules avoid_end target slot
  if avoid_end ≤ start1 ∨ avoid_end < end2 then none
  else
    match acc.getLast? with
    | some last =>
      if start1 < last.stop + rules.min_gap then
        let start2 := roundTo1 (last.stop + rules.min_gap)
        let end3 := roundTo1 (start2 + target)
        if avoid_end < end3 then none
        else some ⟨roundTo1 start2, roundTo1 end3⟩
      else some ⟨roundTo1 start1, roundTo1 end2⟩
    | none => some ⟨roundTo1 start1, roundTo1 end2⟩

/-- The loop of `_validate_and_fix_slots`, processing the sorted raw slots in
order while accumulating `valid_slots`. -/
def vafGo (rules : Rules) (avoid_end target : ℚ) : List RawSlot → List Slot → List Slot
  | [], acc => acc
  | slot :: rest, acc =>
    match vafStep rules avoid_end target acc slot with
    | none => vafGo rules avoid_end target rest acc
    | some s => vafGo rules avoid_end target rest (acc ++ [s])

/-- `_validate_and_fix_slots(raw_slots, video_duration, rules)` from
src/services/gemini.py: clamp-and-fix pass over collaborator-proposed slots. -/
def _validate_and_fix_slots (raw_slots : List RawSlot) (video_duration : ℚ)
    (rules : Rules) : List Slot :=
  let target := (rules.min_duration + rules.max_duration) / 2
  let avoid_end := video_duration - rules.avoid_last
  (vafGo rules avoid_end target (sortByStart raw_slots) []).take rules.max_inserts

/-- `min(boundaries, key=lambda b: abs(b - mid))`: the first element of the
list minimising the distance to `mid` (Python `min` keeps the first minimum). -/
def nearestTo (mid : ℚ) : List ℚ → Option ℚ
  | [] => none
  | b :: rest => some (rest.foldl (fun best x => if |x - mid| < |best - mid| then x else best) b)

/-- One iteration of the `find_broll_slots` loop body
(src/services/gemini.py, lines 263-281) for section index `i`: `none` models
`break` (the slot would end past the valid range), `some s` the slot to
append.  `fbsSnap` computes the section midpoint snapped to the nearest
segment boundary inside the section; `fbsCand` the candidate slot (the snap
point rounded, pushed forward past the previous slot if needed).  The `context_text` computation is omitted
(inspected by no claim). -/
def fbsSnap (segs : List Segment) (valid_start section_len : ℚ) (i : Nat) : ℚ :=
  let section_start := valid_start + (i : ℚ) * section_len
  let section_stop := section_start + section_len
  let boundaries := (segs.map (·.stop)).filter
    (fun b => decide (section_start ≤ b) && decide (b ≤ section_stop))
  let mid := (section_start + section_stop) / 2
  (nearestTo mid boundaries).getD mid

def fbsCand (segs : List Segment) (valid_start section_len target gap : ℚ)
    (i : Nat) (acc : List Slot) : ℚ × ℚ :=
  let s0 := roundTo1 (fbsSnap segs valid_start section_len i)
  let e0 := roundTo1 (s0 + target)
  match acc.getLast? with
  | some last =>
    if s0 < last.stop + gap then
      let s2 := roundTo1 (last.stop + gap)
      (s2, roundTo1 (s2 + target))
    else (s0, e0)
  | none => (s0, e0)

def fbsStep (segs : List Segment) (valid_start section_len avoid_end target gap : ℚ)
    (i : Nat) (acc : List Slot) : Option Slot :=
  let se := fbsCand segs valid_start section_len target gap i acc
  if avoid_end < se.2 then none else some ⟨se.1, se.2⟩

/-- The `for i in range(max_n)` loop of `find_broll_slots`, with `remaining`
counting the iterations left and `i` the current index. -/
def fbsGo (segs : List Segment) (valid_start section_len avoid_end target gap : ℚ) :
    Nat → Nat → List Slot → List Slot
  | _, 0, acc => acc
  | i, Nat.succ r, acc =>
    match fbsStep segs valid_start section_len avoid_end target gap i acc with
    | none => acc
    | some s => fbsGo segs valid_start section_len avoid_end target gap (i + 1) r (acc ++ [s])

/-- `find_broll_slots(segments, video_duration, rules)` from
src/services/gemini.py: the deterministic equal-section slot planner.
Divergence note: when `rules.max_inserts = 0` Python raises
`ZeroDivisionError` computing `section_len`; in this model division by zero
yields `0` and the empty loop returns `[]`.  No claim concerns that case. -/
def find_broll_slots (segments : List Segment) (video_duration : ℚ)
    (rules : Rules) : List Slot :=
  let max_n := rules.max_inserts
  let target := (rules.min_duration + rules.max_duration) / 2
  let avoid_start := rules.avoid_first
  let avoid_end := video_duration - rules.avoid_last
  let valid_start := avoid_start
  let valid_stop := avoid_end - target
  if valid_stop ≤ valid_start ∨ segments = [] then []
  else
    let section_len := (valid_stop - valid_start) / (max_n : ℚ)
    fbsGo segments valid_start section_len avoid_end target rules.min_gap 0 max_n []

/-- The slot invariants claimed by the spec, with an explicit slack on the
upper range bound (`slack = 0` states the exact bound). -/
abbrev SlotOkP (rules : Rules) (avoid_end slack : ℚ) (s : Slot) : Prop :=
  Tenth s.start ∧ Tenth s.stop ∧
  rules.min_duration ≤ s.stop - s.start ∧ s.stop - s.start ≤ rules.max_duration ∧
  rules.avoid_first ≤ s.start ∧ s.stop ≤ avoid_end + slack

/-- Consecutive-slot constraint: the next slot starts at least `min_gap`
after the previous one ends. -/
abbrev gapChain (g : ℚ) (a b : Slot) : Prop := a.stop + g ≤ b.start

/-- All spec-claimed slot properties for a returned slot list, with `slack`
on the upper range bound. -/
abbrev SlotsGood (rules : Rules) (duration slack : ℚ) (slots : List Slot) : Prop :=
  (∀ s ∈ slots, SlotOkP rules (duration - rules.avoid_last) slack s) ∧
  List.Chain' (gapChain rules.min_gap) slots

/-- The claim-relevant entries of a task's `params` dict
(src/services/gemini.py plan schema / src/services/executor.py read sites);
absent keys are `none`. -/
structure Params where
  start_time : Option ℚ := none
  end_time : Option ℚ := none
  stock_id : Option String := none
  segments : Option (List Segment) := none
  image_path : Option String := none
  brightness : Option ℚ := none
  contrast : Option ℚ := none
  saturation : Option ℚ := none
  clip_paths : Option (List String) := none
  query : Option String := none
deriving DecidableEq

/-- A raw task dict `{type, params, output_id?, inputs?}`; every key may be
absent, so that malformed dicts are representable. -/
structure RTask where
  type? : Option String := none
  output_id : Option String := none
  params? : Option Params := none
  inputs : Option (List String) := none
deriving DecidableEq

/-- Python `task["type"]`: raises `KeyError` when the key is absent. -/
def dictType (t : RTask) : Except String String :=
  match t.type? with
  | some τ => .ok τ
  | none => .error "KeyError: type"

/-- Python `task["params"]`: raises `KeyError` when the key is absent. -/
def dictParams (t : RTask) : Except String Params :=
  match t.params? with
  | some p => .ok p
  | none => .error "KeyError: params"

/-- Python truthiness of `task.get("output_id")`: absent and `""` are falsy. -/
def truthyId : Option String → Bool
  | none => false
  | some "" => false
  | some _ => true

/-- First pass of `validate_and_fix_plan` (src/services/gemini.py, lines
384-388): assign `stock_{n}` output ids to fetch tasks lacking a truthy one;
the counter is incremented before use, so the first assigned id is `stock_1`. -/
def pass1go (counter : Nat) : List RTask → Except String (List RTask)
  | [] => .ok []
  | t :: rest => do
    let τ ← dictType t
    if (τ = "fetch_stock_video" ∨ τ = "fetch_stock_image") ∧ truthyId t.output_id = false then
      let rest' ← pass1go (counter + 1) rest
      .ok ({ t with output_id := some ("stock_" ++ toString (counter + 1)) } :: rest')
    else
      let rest' ← pass1go counter rest
      .ok (t :: rest')

/-- Second pass of `validate_and_fix_plan` (src/services/gemini.py, lines
391-401) on one task: clamp an `overlay_video` duration into
`[min_duration, max_duration]` by rewriting `end_time`. -/
def fixOverlay (rules : Rules) (t : RTask) : Except String RTask := do
  let τ ← dictType t
  if τ = "overlay_video" then do
    let p ← dictParams t
    let start := p.start_time.getD 0
    let stop := p.end_time.getD (start + rules.min_duration)
    let dur := stop - start
    if dur < rules.min_duration then
      .ok { t with params? := some { p with end_time := some (roundTo1 (start + rules.min_duration)) } }
    else if rules.max_duration < dur then
      .ok { t with params? := some { p with end_time := some (roundTo1 (start + rules.max_duration)) } }
    else .ok t
  else .ok t

/-- Second pass of `validate_and_fix_plan` over the whole list. -/
def pass2 (rules : Rules) : List RTask → Except String (List RTask)
  | [] => .ok []
  | t :: rest => do
    let t' ← fixOverlay rules t
    let rest' ← pass2 rules rest
    .ok (t' :: rest')

/-- `[i for i, t in enumerate(tasks) if t["type"] == "overlay_video"]` over an
already-enumerated list (reads every task's `type`, so it can raise). -/
def ovIdxE : List (Nat × RTask) → Except String (List Nat)
  | [] => .ok []
  | (j, t) :: rest => do
    let τ ← dictType t
    let r ← ovIdxE rest
    .ok (if τ = "overlay_video" then j :: r else r)

/-- `{tasks[i]["params"].get("stock_id") for i in excess_indices}` — the
stock ids referenced by the excess overlay tasks (Python builds a set; only
membership is used, so a list suffices). -/
def excessSidsE (ts : List RTask) : List Nat → Except String (List (Option String))
  | [] => .ok []
  | i :: rest => do
    let p ← dictParams (ts.getD i {})
    let r ← excessSidsE ts rest
    .ok (p.stock_id :: r)

/-- The final filter of `validate_and_fix_plan` (src/services/gemini.py,
lines 410-414): drop excess overlays and `fetch_stock_video` tasks whose
`output_id` is among the excess stock ids. -/
def filterSnd (excess : List Nat) (sids : List (Option String)) :
    List (Nat × RTask) → Except String (List RTask)
  | [] => .ok []
  | (j, t) :: rest => do
    let τ ← dictType t
    let r ← filterSnd excess sids rest
    .ok (if j ∉ excess ∧ ¬(τ = "fetch_stock_video" ∧ t.output_id ∈ sids) then t :: r else r)

/-- Third pass of `validate_and_fix_plan` (src/services/gemini.py, lines
403-415): truncate overlays to the first `max_inserts` and remove the
`fetch_stock_video` tasks referenced only there. -/
def pass3 (rules : Rules) (ts : List RTask) : Except String (List RTask) := do
  let overlay_indices ← ovIdxE ts.enum
  if rules.max_inserts < overlay_indices.length then
    let excess := overlay_indices.drop rules.max_inserts
    let excess_sids ← excessSidsE ts excess
    filterSnd excess excess_sids ts.enum
  else
    .ok ts

/-- `validate_and_fix_plan(tasks, rules)` from src/services/gemini.py:
the three repair passes in order.  Python mutates the list in place and
returns it; the model returns the new value.  `KeyError` raised by
`task["type"]` / `task["params"]` accesses is the `.error` case. -/
def validate_and_fix_plan (tasks : List RTask) (rules : Rules) :
    Except String (List RTask) := do
  let ts1 ← pass1go 0 tasks
  let ts2 ← pass2 rules ts1
  pass3 rules ts2

/-- An overlay-insertion task. -/
abbrev isOv (t : RTask) : Prop := t.type? = some "overlay_video"

/-- A stock-video fetch task (the only kind the third pass removes). -/
abbrev isFetchVid (t : RTask) : Prop := t.type? = some "fetch_stock_video"

/-- The `stock_id` an overlay task references (`params.get("stock_id")`). -/
def stockIdOf (t : RTask) : Option String := (t.params?.getD {}).stock_id

/-- Pure recursive version of the overlay-index computation, for proofs. -/
def ovIdxFrom (n : Nat) : List RTask → List Nat
  | [] => []
  | t :: rest =>
    if t.type? = some "overlay_video" then n :: ovIdxFrom (n + 1) rest
    else ovIdxFrom (n + 1) rest

/-- Recursive characterisation of the third pass's filter: keep the first
`maxI` overlays (counting with `c`), drop the rest, and drop
`fetch_stock_video` tasks whose `output_id` is in `sids`. -/
def pass3core (maxI : Nat) (sids : List (Option String)) : Nat → List RTask → List RTask
  | _, [] => []
  | c, t :: rest =>
    if t.type? = some "overlay_video" then
      (if c < maxI then t :: pass3core maxI sids (c + 1) rest
       else pass3core maxI sids (c + 1) rest)
    else if t.type? = some "fetch_stock_video" ∧ t.output_id ∈ sids then
      pass3core maxI sids c rest
    else t :: pass3core maxI sids c rest

/-- Well-formedness of a task list: every task has a `type` key and every
`overlay_video` task has a `params` dict (what `validate_and_fix_plan`
accesses with raising bracket syntax). -/
abbrev WellFormedPlan (tasks : List RTask) : Prop :=
  ∀ t ∈ tasks, t.type?.isSome = true ∧
    (t.type? = some "overlay_video" → t.params?.isSome = true)

/-- Every fetch task carries a truthy `output_id` (pass 1 is then a no-op). -/
abbrev FetchIdsTruthy (tasks : List RTask) : Prop :=
  ∀ t ∈ tasks, (t.type? = some "fetch_stock_video" ∨ t.type? = some "fetch_stock_image") →
    truthyId t.output_id = true

/-- The overlay duration read by pass 2, with the source's defaults
(`start_time` defaults to 0, `end_time` to `start + min_duration`). -/
def overlayDur (rules : Rules) (p : Params) : ℚ :=
  let start := p.start_time.getD 0
  p.end_time.getD (start + rules.min_duration) - start

/-- Every overlay duration is already within bounds (pass 2 is then a no-op). -/
abbrev OverlayDurValid (rules : Rules) (tasks : List RTask) : Prop :=
  ∀ t ∈ tasks, t.type? = some "overlay_video" →
    rules.min_duration ≤ overlayDur rules (t.params?.getD {}) ∧
    overlayDur rules (t.params?.getD {}) ≤ rules.max_duration

/-- One entry of a Pexels `video_files` list (only the fields the code reads). -/
structure VFile where
  width : Nat
  link : String
deriving DecidableEq

/-- One Pexels video search result. -/
structure Video where
  video_files : List VFile
deriving DecidableEq

/-- Split a character list at whitespace runs, dropping empty pieces — the
semantics of Python `str.split()` with no argument.  Implemented structurally
(rather than with `String.split`, whose well-founded recursion the kernel
cannot evaluate on concrete inputs); `cur` holds the current word reversed. -/
def wsSplitAux (cur : List Char) : List Char → List (List Char)
  | [] => if cur = [] then [] else [cur.reverse]
  | c :: rest =>
    if c.isWhitespace then
      if cur = [] then wsSplitAux [] rest else cur.reverse :: wsSplitAux [] rest
    else wsSplitAux (c :: cur) rest

/-- Python `s.split()`. -/
def pySplitWs (s : String) : List String := (wsSplitAux [] s.data).map String.mk

/-- Python `s.strip()`: remove leading and trailing whitespace (the
semantics of `String.trim`, implemented structurally for evaluability). -/
def pyStrip (s : String) : String :=
  String.mk (((s.data.dropWhile Char.isWhitespace).reverse.dropWhile
    Char.isWhitespace).reverse)

/-- `[w for w in query.split() if len(w) > 3]`: the long words of a query. -/
def longWords (query : String) : List String :=
  (pySplitWs query).filter (fun w => decide (3 < w.length))

/-- Order-preserving first-occurrence deduplication, modelling the
`seen`-set comprehension at the end of `_fallback_queries`. -/
def dedupFirstAux (seen : List String) : List String → List String
  | [] => []
  | q :: rest =>
    if q ∈ seen then dedupFirstAux seen rest
    else q :: dedupFirstAux (q :: seen) rest

/-- `_fallback_queries(query, alternatives)` from src/services/stock.py:
primary query, then each alternative that is truthy, non-blank and differs
from the primary (appended trimmed), then `" ".join(words[:2])` when more
than two long words exist, then `words[0]` when more than one exists;
deduplicated preserving first occurrence. -/
def _fallback_queries (query : String) (alternatives : List String) : List String :=
  let altKept := alternatives.filterMap
    (fun alt => if alt ≠ "" ∧ pyStrip alt ≠ "" ∧ alt ≠ query then some (pyStrip alt) else none)
  let words := longWords query
  let shortened :=
    (if 2 < words.length then [String.intercalate " " (words.take 2)] else []) ++
    (if 1 < words.length then [words.headD ""] else [])
  dedupFirstAux [] ([query] ++ altKept ++ shortened)

/-- The environment the stock-media search runs against: the Pexels response
per query and the clock value used in the destination file name. -/
structure StockEnv where
  search : String → List Video
  now : Nat

/-- The retry loop of `_fetch_video` (src/services/stock.py, lines 104-121):
append the query to `tried`, issue the search, stop at the first non-empty
result list. -/
def fetchLoop (search : String → List Video) : List String → List String → List String × List Video
  | tried, [] => (tried, [])
  | tried, q :: rest =>
    let tried' := tried ++ [q]
    let vs := search q
    if vs = [] then fetchLoop search tried' rest else (tried', vs)

/-- Stable insertion sort by `width`, modelling
`sorted(video.get("video_files", []), key=lambda f: f.get("width", 0))`. -/
def insertByWidth (x : VFile) : List VFile → List VFile
  | [] => [x]
  | y :: ys => if y.width ≤ x.width then y :: insertByWidth x ys else x :: y :: ys

/-- Stable sort of video files by width. -/
def sortByWidth (l : List VFile) : List VFile := l.foldr insertByWidth []

/-- `_fetch_video(query, ...)` from src/services/stock.py, returning the
`tried` list together with the downloaded file's path (`none` when no query
produced results or the chosen video has no files).  The selected download
URL influences the file's content, not its path, and is not modelled. -/
def _fetch_video (env : StockEnv) (query : String) (dest_dir : String)
    (alternatives : List String) : List String × Option String :=
  let r := fetchLoop env.search [] (_fallback_queries query alternatives)
  match r.2 with
  | [] => (r.1, none)
  | v :: _ =>
    match sortByWidth v.video_files with
    | [] => (r.1, none)
    | _ :: _ =>
      let slug := (query.replace " " "_").take 30
      (r.1, some (dest_dir ++ "/stock_video_" ++ slug ++ "_" ++ toString env.now ++ ".mp4"))

/-- One external invocation performed by the executor: an FFmpeg run for the
task at position `i` (with the `task_name` passed to `_ffmpeg_run`), or a
stock-media fetch. -/
inductive Call where
  | ffmpeg (i : Nat) (taskName : String)
  | fetchMedia (i : Nat) (mediaType : String) (query : String)
deriving DecidableEq

/-- The exceptions `run_tasks` can raise.  The constructor fields are exactly
the data interpolated into the corresponding Python message:
* `ffmpegFailed nm code` — `RuntimeError` from `_ffmpeg_run`, message
  `FFmpeg failed in <nm> (exit <code>). See logs for details.` (no task
  position appears in it);
* `inputNotFound τ first keys` — `ValueError` from `_resolve_input`, message
  `Task <τ>: input <first> not found in registry. Available: <keys>`;
* `concatInputNotFound n` — `ValueError` from `_resolve_inputs_list`, message
  `concat: input <n> not found in registry.` (no available-names list). -/
inductive ExecErr where
  | ffmpegFailed (taskName : String) (exitCode : Nat)
  | inputNotFound (taskType : Option String) (inputName : String) (available : List String)
  | concatInputNotFound (inputName : String)
deriving DecidableEq

/-- The external world one execution run interacts with: per-task-position
FFmpeg outcome and exit code, per-task-position stock-fetch result, and file
existence for paths the plan mentions. -/
structure Env where
  ffmpegOk : Nat → Bool
  ffmpegCode : Nat → Nat
  fetchResult : Nat → Option String
  fileExists : String → Bool

/-- Lookup in an association list keyed by strings (first match wins). -/
def alookup {α : Type} : List (String × α) → String → Option α
  | [], _ => none
  | e :: rest, k => if e.1 = k then some e.2 else alookup rest k

/-- Python dict update `r[k] = v`: replace in place when the key exists
(preserving insertion order, which the registry error message exposes),
append otherwise. -/
def registryUpdate (r : List (String × String)) (k v : String) : List (String × String) :=
  if (alookup r k).isSome then r.map (fun e => if e.1 = k then (k, v) else e)
  else r ++ [(k, v)]

/-- `list(registry.keys())` in insertion order. -/
def registryKeys (r : List (String × String)) : List String := r.map (·.1)

/-- Remove every binding of path `p` from the disk (file deletion). -/
def diskErase (d : List (String × Nat)) (p : String) : List (String × Nat) :=
  d.filter (fun e => decide (¬ e.1 = p))

/-- Write content `c` at path `p` (the disk is a map; order is irrelevant). -/
def diskSet (d : List (String × Nat)) (p : String) (c : Nat) : List (String × Nat) :=
  (p, c) :: diskErase d p

/-- The scratch path `_temp_path` produces for the task at position `i`;
the source derives a fresh pseudo-random name from the clock, modelled here
as deterministic-but-distinct per task position. -/
def tempName (i : Nat) (pfx : String) : String := pfx ++ "_" ++ toString i

/-- Mutable state of one `run_tasks` run: the named-artifact registry, the
linear chain pointer `current_path`, the recorded transient paths
`temp_paths`, the file system, and the log of external invocations. -/
structure ExecState where
  registry : List (String × String)
  current : String
  temps : List String
  disk : List (String × Nat)
  trace : List Call
deriving DecidableEq

/-- `_register(task, result_path, advance_chain)` from
src/services/executor.py: publish under a truthy `output_id` and optionally
advance `current_path`. -/
def _register (t : RTask) (resultPath : String) (advance : Bool) (s : ExecState) : ExecState :=
  let s1 :=
    match t.output_id with
    | some oid =>
      if oid = "" then s
      else { s with registry := registryUpdate s.registry oid resultPath }
    | none => s
  if advance then { s1 with current := resultPath } else s1

/-- `_resolve_input(task)` from src/services/executor.py: the first `inputs`
entry resolved through the registry when `inputs` is truthy, else
`current_path`; a missing name raises with the available registry keys. -/
def _resolve_input (t : RTask) (s : ExecState) : Except ExecErr String :=
  match t.inputs with
  | some (first :: _) =>
    match alookup s.registry first with
    | some p => .ok p
    | none => .error (.inputNotFound t.type? first (registryKeys s.registry))
  | _ => .ok s.current

/-- The loop of `_resolve_inputs_list`: resolve each name in order, raising
(without the available-names list) at the first missing one. -/
def _resolve_inputs_list_go (s : ExecState) : List String → Except ExecErr (List String)
  | [] => .ok []
  | n :: rest =>
    match alookup s.registry n with
    | some p => do
      let r ← _resolve_inputs_list_go s rest
      .ok (p :: r)
    | none => .error (.concatInputNotFound n)

/-- `_resolve_inputs_list(task)` from src/services/executor.py. -/
def _resolve_inputs_list (t : RTask) (s : ExecState) : Except ExecErr (List String) :=
  match t.inputs with
  | some (n :: ns) => _resolve_inputs_list_go s (n :: ns)
  | _ => .ok [s.current]

/-- The common tail of every FFmpeg branch of `run_tasks`: record the
invocation; on success write the new artifact at a fresh scratch path,
record it in `temp_paths` and `_register` it (advancing the chain); on
failure raise `ffmpegFailed` (the `_ffmpeg_run` re-raise), leaving artifact
state untouched.  The produced content is identified by `i + 1`. -/
def ffmpegFinish (env : Env) (i : Nat) (t : RTask) (s : ExecState) (pfx nm : String) :
    ExecState × Option ExecErr :=
  let out := tempName i pfx
  let s1 := { s with trace := s.trace ++ [Call.ffmpeg i nm] }
  if env.ffmpegOk i then
    let s2 := { s1 with disk := diskSet s1.disk out (i + 1), temps := s1.temps ++ [out] }
    (_register t out true s2, none)
  else (s1, some (.ffmpegFailed nm (env.ffmpegCode i)))

/-- An FFmpeg branch that resolves its primary input and then always invokes
FFmpeg (no skip condition). -/
def ffmpegSimple (env : Env) (i : Nat) (t : RTask) (s : ExecState) (pfx nm : String) :
    ExecState × Option ExecErr :=
  match _resolve_input t s with
  | .error e => (s, some e)
  | .ok _ => ffmpegFinish env i t s pfx nm

/-- The `fetch_stock_video` / `fetch_stock_image` branch of `run_tasks`:
skip without any invocation when `query` is falsy; otherwise invoke the
stock fetch; on `None` skip, on success record the download in `temp_paths`
and `_register` it with `advance_chain=False`. -/
def fetchStep (env : Env) (i : Nat) (t : RTask) (s : ExecState) (mediaType : String)
    (params : Params) : ExecState × Option ExecErr :=
  let query := params.query.getD ""
  if query = "" then (s, none)
  else
    let s1 := { s with trace := s.trace ++ [Call.fetchMedia i mediaType query] }
    match env.fetchResult i with
    | none => (s1, none)
    | some p =>
      let s2 := { s1 with temps := s1.temps ++ [p], disk := diskSet s1.disk p (i + 1) }
      (_register t p false s2, none)

/-- One iteration of the `run_tasks` loop (src/services/executor.py, lines
183-471) for the task at position `i`.  Unrecognised (or absent) `type` is
skipped.  Parameter parsing that only shapes the FFmpeg command string
(positions, colours, ratios, speed factor) is not modelled. -/
def stepTask (env : Env) (i : Nat) (t : RTask) (s : ExecState) : ExecState × Option ExecErr :=
  let params := t.params?.getD {}
  let τ := t.type?
  if τ = some "add_text_overlay" then ffmpegSimple env i t s "step_text" "add_text_overlay"
  else if τ = some "trim" then ffmpegSimple env i t s "step_trim" "trim"
  else if τ = some "resize" then ffmpegSimple env i t s "step_resize" "resize"
  else if τ = some "change_speed" then ffmpegSimple env i t s "step_speed" "change_speed"
  else if τ = some "add_subtitles" then
    match _resolve_input t s with
    | .error e => (s, some e)
    | .ok _ =>
      if params.segments.getD [] = [] then (s, none)
      else ffmpegFinish env i t s "step_subtitles" "add_subtitles"
  else if τ = some "add_image_overlay" then
    match _resolve_input t s with
    | .error e => (s, some e)
    | .ok _ =>
      match params.image_path with
      | none => (s, none)
      | some ip =>
        if ip = "" ∨ env.fileExists ip = false then (s, none)
        else ffmpegFinish env i t s "step_imgoverlay" "add_image_overlay"
  else if τ = some "auto_frame_face" then ffmpegSimple env i t s "step_face" "auto_frame_face"
  else if τ = some "color_correction" then
    match _resolve_input t s with
    | .error e => (s, some e)
    | .ok src =>
      if params.brightness.getD 0 = 0 ∧ params.contrast.getD 0 = 0 ∧
          params.saturation.getD 0 = 0 then
        let out := tempName i "step_color"
        let s2 := { s with disk := diskSet s.disk out ((alookup s.disk src).getD 0),
                           temps := s.temps ++ [out] }
        (_register t out true s2, none)
      else ffmpegFinish env i t s "step_color" "color_correction"
  else if τ = some "concat" then
    match t.inputs with
    | some (_ :: _) =>
      (match _resolve_inputs_list t s with
       | .error e => (s, some e)
       | .ok paths =>
         if paths = [] then (s, none)
         else ffmpegFinish env i t s "step_concat" "concat")
    | _ =>
      let resolved := (params.clip_paths.getD []).filter (fun p => env.fileExists p)
      if resolved = [] then (s, none)
      else ffmpegFinish env i t s "step_concat" "concat"
  else if τ = some "zoompan" then ffmpegSimple env i t s "step_zoompan" "zoompan"
  else if τ = some "fetch_stock_video" then fetchStep env i t s "video" params
  else if τ = some "fetch_stock_image" then fetchStep env i t s "image" params
  else (s, none)

/-- The sequential task loop of `run_tasks`: stop at the first raised
exception, carrying the state the run had at that moment (the exception
propagates; no cleanup happens on this path). -/
def runTasksGo (env : Env) : List RTask → Nat → ExecState → ExecState × Option ExecErr
  | [], _, s => (s, none)
  | t :: rest, i, s =>
    match stepTask env i t s with
    | (s', none) => runTasksGo env rest (i + 1) s'
    | (s', some e) => (s', some e)

/-- `run_tasks(input_path, tasks, output_path)` from src/services/executor.py.
The returned pair is the final world state (registry, `temp_paths`, disk,
invocation log) and either the returned output path or the propagated
exception.  An empty plan copies the input to the output before any registry
or scratch state exists.  On normal loop completion the final `current_path`
is copied to `output_path` and every recorded temp path other than
`output_path` is unlinked; on an exception nothing of that runs. -/
def run_tasks (env : Env) (input_path : String) (tasks : List RTask)
    (output_path : String) : ExecState × Except ExecErr String :=
  if tasks = [] then
    let d0 : List (String × Nat) := [(input_path, 0)]
    ({ registry := [], current := input_path, temps := [],
       disk := diskSet d0 output_path ((alookup d0 input_path).getD 0), trace := [] },
     .ok output_path)
  else
    let s0 : ExecState :=
      { registry := [("source", input_path)], current := input_path, temps := [],
        disk := [(input_path, 0)], trace := [] }
    match runTasksGo env tasks 0 s0 with
    | (s, some e) => (s, .error e)
    | (s, none) =>
      let s1 :=
        if s.current = output_path then s
        else { s with disk := diskSet s.disk output_path ((alookup s.disk s.current).getD 0) }
      let s2 := { s1 with
        disk := s1.temps.foldl (fun d p => if p = output_path then d else diskErase d p) s1.disk }
      (s2, .ok output_path)

/-- The cleanup invariant: every recorded transient path other than the
output path is gone from the disk. -/
abbrev CleanupOk (s : ExecState) (output_path : String) : Prop :=
  ∀ p ∈ s.temps, p ≠ output_path → alookup s.disk p = none

/-- The situations in which the task at position `i` reaches an FFmpeg
invocation (one constructor per recognised branch of `run_tasks`, carrying
that branch's resolve/skip conditions from the source); the two indices are
the scratch-path prefix and the `task_name` given to `_ffmpeg_run`. -/
inductive ReachesFfmpeg (env : Env) (i : Nat) (t : RTask) (s : ExecState) :
    String → String → Prop where
  | text_overlay (p : String) (hty : t.type? = some "add_text_overlay")
      (hres : _resolve_input t s = .ok p) :
      ReachesFfmpeg env i t s "step_text" "add_text_overlay"
  | trim (p : String) (hty : t.type? = some "trim")
      (hres : _resolve_input t s = .ok p) :
      ReachesFfmpeg env i t s "step_trim" "trim"
  | resize (p : String) (hty : t.type? = some "resize")
      (hres : _resolve_input t s = .ok p) :
      ReachesFfmpeg env i t s "step_resize" "resize"
  | change_speed (p : String) (hty : t.type? = some "change_speed")
      (hres : _resolve_input t s = .ok p) :
      ReachesFfmpeg env i t s "step_speed" "change_speed"
  | add_subtitles (p : String) (hty : t.type? = some "add_subtitles")
      (hres : _resolve_input t s = .ok p)
      (hseg : (t.params?.getD {}).segments.getD [] ≠ []) :
      ReachesFfmpeg env i t s "step_subtitles" "add_subtitles"
  | add_image_overlay (p ip : String) (hty : t.type? = some "add_image_overlay")
      (hres : _resolve_input t s = .ok p)
      (hip : (t.params?.getD {}).image_path = some ip) (hne : ip ≠ "")
      (hex : env.fileExists ip = true) :
      ReachesFfmpeg env i t s "step_imgoverlay" "add_image_overlay"
  | auto_frame_face (p : String) (hty : t.type? = some "auto_frame_face")
      (hres : _resolve_input t s = .ok p) :
      ReachesFfmpeg env i t s "step_face" "auto_frame_face"
  | color_correction (p : String) (hty : t.type? = some "color_correction")
      (hres : _resolve_input t s = .ok p)
      (hnz : ¬((t.params?.getD {}).brightness.getD 0 = 0 ∧
               (t.params?.getD {}).contrast.getD 0 = 0 ∧
               (t.params?.getD {}).saturation.getD 0 = 0)) :
      ReachesFfmpeg env i t s "step_color" "color_correction"
  | concat_inputs (n : String) (ns ps : List String) (hty : t.type? = some "concat")
      (hin : t.inputs = some (n :: ns))
      (hres : _resolve_inputs_list t s = .ok ps) (hne : ps ≠ []) :
      ReachesFfmpeg env i t s "step_concat" "concat"
  | concat_clips (hty : t.type? = some "concat")
      (hin : t.inputs = none ∨ t.inputs = some [])
      (hcl : ((t.params?.getD {}).clip_paths.getD []).filter
          (fun p => env.fileExists p) ≠ []) :
      ReachesFfmpeg env i t s "step_concat" "concat"
  | zoompan (p : String) (hty : t.type? = some "zoompan")
      (hres : _resolve_input t s = .ok p) :
      ReachesFfmpeg env i t s "step_zoompan" "zoompan"

/-- The single-input task kinds whose primary input goes through
`_resolve_input` (every recognised kind except `concat` and the two fetch
kinds). -/
def singleInputKinds : List String :=
  ["add_text_overlay", "trim", "resize", "change_speed", "add_subtitles",
   "add_image_overlay", "auto_frame_face", "color_correction", "zoompan"]

/-! Concrete fixtures used by counterexamples and witnesses. -/

/-- An environment in which every external invocation succeeds. -/
def envAllOk : Env :=
  { ffmpegOk := fun _ => true, ffmpegCode := fun _ => 0,
    fetchResult := fun i => some ("dl_" ++ toString i), fileExists := fun _ => true }

/-- An environment in which exactly the FFmpeg invocation of the task at
position `k` fails with exit code 1. -/
def envFailAt (k : Nat) : Env :=
  { ffmpegOk := fun i => !(i == k), ffmpegCode := fun _ => 1,
    fetchResult := fun i => some ("dl_" ++ toString i), fileExists := fun _ => true }

/-- A plain `trim` task (no `inputs`, no `output_id`). -/
def trimTask : RTask := { type? := some "trim", params? := some {} }

/-- A `fetch_stock_video` task with a truthy `output_id` and query. -/
def fetchVid (sid q : String) : RTask :=
  { type? := some "fetch_stock_video", output_id := some sid,
    params? := some { query := some q } }

/-- An `overlay_video` task with the given window and `stock_id`. -/
def overlayVid (st en : ℚ) (sid : String) : RTask :=
  { type? := some "overlay_video",
    params? := some { start_time := some st, end_time := some en, stock_id := some sid } }

/-! Helper lemmas about `roundTo1` and `Tenth`. -/

theorem tenth_iff {q : ℚ} : Tenth q ↔ ∃ k : ℤ, q = k / 10 := by
  constructor
  · intro h
    refine ⟨(10 * q).num, ?_⟩
    have h2 : ((10 * q).num : ℚ) = 10 * q := by
      conv_rhs => rw [← Rat.num_div_den (10 * q)]
      rw [h]
      simp
    rw [h2]
    ring
  · rintro ⟨k, rfl⟩
    have h10 : (10 : ℚ) ≠ 0 := by norm_num
    unfold Tenth
    rw [mul_div_cancel₀ _ h10]
    exact Rat.den_intCast k

theorem tenth_add {a b : ℚ} (ha : Tenth a) (hb : Tenth b) : Tenth (a + b) := by
  obtain ⟨m, rfl⟩ := tenth_iff.mp ha
  obtain ⟨n, rfl⟩ := tenth_iff.mp hb
  exact tenth_iff.mpr ⟨m + n, by push_cast; ring⟩

theorem roundTo1_le (x : ℚ) : roundTo1 x ≤ x + 1 / 20 := by
  have h : ((round (10 * x) : ℤ) : ℚ) ≤ 10 * x + 1 / 2 := by
    rw [round_eq]
    exact Int.floor_le _
  unfold roundTo1
  linarith

theorem roundTo1_gt (x : ℚ) : x - 1 / 20 < roundTo1 x := by
  have h : 10 * x + 1 / 2 < ((round (10 * x) : ℤ) : ℚ) + 1 := by
    rw [round_eq]
    exact Int.lt_floor_add_one _
  unfold roundTo1
  linarith

theorem roundTo1_mono {x y : ℚ} (h : x ≤ y) : roundTo1 x ≤ roundTo1 y := by
  have h2 : round (10 * x) ≤ round (10 * y) := by
    rw [round_eq, round_eq]
    exact Int.floor_le_floor (by linarith)
  unfold roundTo1
  have h3 : ((round (10 * x) : ℤ) : ℚ) ≤ ((round (10 * y) : ℤ) : ℚ) := by exact_mod_cast h2
  linarith

theorem tenth_roundTo1 (x : ℚ) : Tenth (roundTo1 x) :=
  tenth_iff.mpr ⟨round (10 * x), rfl⟩

theorem roundTo1_eq_of_tenth {x : ℚ} (h : Tenth x) : roundTo1 x = x := by
  obtain ⟨k, rfl⟩ := tenth_iff.mp h
  have h10 : (10 : ℚ) ≠ 0 := by norm_num
  unfold roundTo1
  rw [mul_div_cancel₀ _ h10, round_intCast]

theorem roundTo1_add_tenth (x : ℚ) {t : ℚ} (ht : Tenth t) :
    roundTo1 (x + t) = roundTo1 x + t := by
  obtain ⟨k, rfl⟩ := tenth_iff.mp ht
  have h10 : (10 : ℚ) ≠ 0 := by norm_num
  unfold roundTo1
  have h1 : 10 * (x + (k : ℚ) / 10) = 10 * x + (k : ℚ) := by ring
  rw [h1]
  have h2 : (10 : ℚ) * x + (k : ℚ) = 10 * x + ((k : ℤ) : ℚ) := by norm_num
  rw [h2, round_add_int]
  push_cast
  ring

theorem tenth_le_of_lt {a b : ℚ} (ha : Tenth a) (hb : Tenth b)
    (h : b - 1 / 10 < a) : b ≤ a := by
  obtain ⟨m, rfl⟩ := tenth_iff.mp ha
  obtain ⟨n, rfl⟩ := tenth_iff.mp hb
  have h1 : (n : ℚ) < m + 1 := by linarith
  have h2 : n < m + 1 := by exact_mod_cast h1
  have h3 : n ≤ m := by omega
  have h4 : (n : ℚ) ≤ (m : ℚ) := by exact_mod_cast h3
  linarith

/-! Helper lemmas about the disk map. -/

theorem alookup_diskSet_self (d : List (String × Nat)) (p : String) (c : Nat) :
    alookup (diskSet d p c) p = some c := by
  simp [diskSet, alookup]

theorem alookup_diskErase_none {d : List (String × Nat)} {p : String} (q : String)
    (h : alookup d p = none) : alookup (diskErase d q) p = none := by
  induction d with
  | nil => simpa [diskErase] using h
  | cons e rest ih =>
    simp only [alookup] at h
    by_cases he : e.1 = p
    · simp [he] at h
    · simp only [if_neg he] at h
      by_cases heq : e.1 = q
      · simpa [diskErase, heq] using ih h
      · simpa [diskErase, heq, alookup, he] using ih h

theorem alookup_diskErase_self (d : List (String × Nat)) (p : String) :
    alookup (diskErase d p) p = none := by
  induction d with
  | nil => simp [diskErase, alookup]
  | cons e rest ih =>
    by_cases he : e.1 = p
    · simpa [diskErase, he] using ih
    · simpa [diskErase, he, alookup] using ih

theorem cleanup_fold_preserve (out : String) :
    ∀ (L : List String) (d : List (String × Nat)) (p : String), alookup d p = none →
      alookup (L.foldl (fun d q => if q = out then d else diskErase d q) d) p = none := by
  intro L
  induction L with
  | nil => intro d p h; simpa using h
  | cons q L' ih =>
    intro d p h
    simp only [List.foldl_cons]
    by_cases hq : q = out
    · rw [if_pos hq]; exact ih d p h
    · rw [if_neg hq]; exact ih _ p (alookup_diskErase_none q h)

theorem cleanup_fold (out : String) :
    ∀ (L : List String) (d : List (String × Nat)) (p : String), p ∈ L → p ≠ out →
      alookup (L.foldl (fun d q => if q = out then d else diskErase d q) d) p = none := by
  intro L
  induction L with
  | nil => intro d p hp; exact absurd hp (List.not_mem_nil p)
  | cons q L' ih =>
    intro d p hp hne
    simp only [List.foldl_cons]
    rcases List.mem_cons.mp hp with hqp | hp'
    · subst hqp
      rw [if_neg hne]
      exact cleanup_fold_preserve out L' _ p (alookup_diskErase_self d p)
    · by_cases hq : q = out
      · rw [if_pos hq]; exact ih d p hp' hne
      · rw [if_neg hq]; exact ih _ p hp' hne

/-! Claim C10. -/

/-- Claim C10 (confirmed): for every input path and output path, running
`run_tasks` with an empty task list copies the input file unchanged to the
output path (same content) and returns the output path, creating no registry
entries, no transient artifacts and performing no external invocation. -/
theorem C10_empty_plan (env : Env) (input_path output_path : String) :
    run_tasks env input_path [] output_path =
      ({ registry := [], current := input_path, temps := [],
         disk := diskSet [(input_path, 0)] output_path
           ((alookup [(input_path, 0)] input_path).getD 0),
         trace := [] }, .ok output_path) ∧
    alookup (run_tasks env input_path [] output_path).1.disk output_path =
      alookup [(input_path, 0)] input_path := by
  constructor
  · simp [run_tasks]
  · simp [run_tasks, alookup_diskSet_self, alookup]

/-! Claim C1. -/

/-- Claim C1 (counterexample): a two-task plan whose second FFmpeg invocation
fails makes `run_tasks` abort by raising, and the transient artifact recorded
by the first task (`step_trim_0`, distinct from the output path) is still on
disk: the cleanup loop is not on the exception path, so the claimed
"cleanup on every exit" is false. -/
theorem C1_cleanup_counterexample :
    (run_tasks (envFailAt 1) "in.mp4" [trimTask, trimTask] "out.mp4").2 =
      .error (.ffmpegFailed "trim" 1) ∧
    ¬ CleanupOk (run_tasks (envFailAt 1) "in.mp4" [trimTask, trimTask] "out.mp4").1
        "out.mp4" := by
  constructor
  · rfl
  · intro h
    exact absurd (h "step_trim_0" (by decide) (by decide)) (by decide)

/-- Claim C1 (amended): when `run_tasks` returns normally, every transient
artifact path it recorded has been deleted from disk, except whatever sits at
the output path; when it aborts by raising, no cleanup happens (see the
counterexample). -/
theorem C1_cleanup_on_success (env : Env) (input_path : String) (tasks : List RTask)
    (output_path : String)
    (h : ∃ p, (run_tasks env input_path tasks output_path).2 = .ok p) :
    CleanupOk (run_tasks env input_path tasks output_path).1 output_path := by
  by_cases ht : tasks = []
  · subst ht
    simp [run_tasks, CleanupOk]
  · obtain ⟨q, hq⟩ := h
    rcases hgo : runTasksGo env tasks 0
      { registry := [("source", input_path)], current := input_path, temps := [],
        disk := [(input_path, 0)], trace := [] } with ⟨s, oe⟩
    cases oe with
    | some e =>
      exfalso
      simp only [run_tasks, if_neg ht, hgo] at hq
      simp at hq
    | none =>
      simp only [run_tasks, if_neg ht, hgo]
      by_cases hcur : s.current = output_path
      · simp only [if_pos hcur]
        intro p hp hne
        exact cleanup_fold output_path _ _ p hp hne
      · simp only [if_neg hcur]
        intro p hp hne
        exact cleanup_fold output_path _ _ p hp hne

/-- Witness for `C1_cleanup_on_success`: a concrete successful one-task run
in which the recorded scratch path `step_trim_0` has indeed been deleted. -/
theorem C1_cleanup_on_success_witness :
    (∃ p, (run_tasks envAllOk "in.mp4" [trimTask] "out.mp4").2 = .ok p) ∧
    alookup (run_tasks envAllOk "in.mp4" [trimTask] "out.mp4").1.disk "step_trim_0" =
      none :=
  ⟨⟨"out.mp4", rfl⟩,
   C1_cleanup_on_success envAllOk "in.mp4" [trimTask] "out.mp4"
     ⟨"out.mp4", rfl⟩ "step_trim_0" (by decide) (by decide)⟩

/-! Claim C2. -/

/-- Claim C2 (counterexample): a `fetch_stock_video` task with
`inputs=["missing"]` does not raise at all — fetch branches never consult
`inputs` — and its external stock invocation does occur, contradicting the
claim that every task with an unresolvable input raises an
unresolved-reference error before any external invocation. -/
theorem C2_unresolved_counterexample :
    (run_tasks envAllOk "in.mp4"
       [{ type? := some "fetch_stock_video", params? := some { query := some "q" },
          inputs := some ["missing"] }] "out.mp4").2 = .ok "out.mp4" ∧
    (run_tasks envAllOk "in.mp4"
       [{ type? := some "fetch_stock_video", params? := some { query := some "q" },
          inputs := some ["missing"] }] "out.mp4").1.trace =
      [Call.fetchMedia 0 "video" "q"] := ⟨rfl, by decide⟩

/-- Claim C2 (amended): for the nine single-input kinds, a task whose first
`inputs` name is not in the registry aborts the run with an
unresolved-reference error carrying the currently available registry names,
before any external invocation for that task (the returned state is exactly
the incoming one, so the invocation log is unchanged); a `concat` task also
aborts before its invocation, but its error does not carry the available
names; fetch tasks (see the counterexample) and unrecognised kinds never
consult `inputs`. -/
theorem C2_unresolved_amended (env : Env) (i : Nat) (t : RTask) (s : ExecState)
    (rest : List RTask) (τ : String) (hτ : t.type? = some τ)
    (first : String) (more : List String) (hin : t.inputs = some (first :: more))
    (hmiss : alookup s.registry first = none) :
    (τ ∈ singleInputKinds →
      runTasksGo env (t :: rest) i s =
        (s, some (ExecErr.inputNotFound (some τ) first (registryKeys s.registry)))) ∧
    (τ = "concat" →
      runTasksGo env (t :: rest) i s =
        (s, some (ExecErr.concatInputNotFound first))) := by
  constructor
  · intro hk
    simp only [singleInputKinds, List.mem_cons, List.not_mem_nil, or_false] at hk
    have hres : _resolve_input t s =
        .error (.inputNotFound t.type? first (registryKeys s.registry)) := by
      simp [_resolve_input, hin, hmiss]
    rcases hk with rfl | rfl | rfl | rfl | rfl | rfl | rfl | rfl | rfl <;>
      simp [runTasksGo, stepTask, hτ, ffmpegSimple, hres]
  · rintro rfl
    have hres : _resolve_inputs_list t s = .error (.concatInputNotFound first) := by
      simp [_resolve_inputs_list, hin, _resolve_inputs_list_go, hmiss]
    simp [runTasksGo, stepTask, hτ, hin, hres]

/-- Witness for `C2_unresolved_amended`: a concrete `trim` task with
`inputs=["missing"]` against the freshly seeded registry aborts with the
error listing the one available name `source`, leaving the state (and hence
the invocation log) untouched. -/
theorem C2_unresolved_amended_witness :
    runTasksGo envAllOk
      [{ type? := some "trim", inputs := some ["missing"] }] 0
      { registry := [("source", "in.mp4")], current := "in.mp4", temps := [],
        disk := [("in.mp4", 0)], trace := [] } =
      ({ registry := [("source", "in.mp4")], current := "in.mp4", temps := [],
         disk := [("in.mp4", 0)], trace := [] },
       some (ExecErr.inputNotFound (some "trim") "missing" ["source"])) :=
  (C2_unresolved_amended envAllOk 0
    { type? := some "trim", inputs := some ["missing"] }
    { registry := [("source", "in.mp4")], current := "in.mp4", temps := [],
      disk := [("in.mp4", 0)], trace := [] }
    [] "trim" rfl "missing" [] rfl (by decide)).1 (by decide)

/-! Claim C6. -/

/-- Claim C6 (counterexample): a failing `trim` at position 0 of a one-task
plan and a failing `trim` at position 1 of a two-task plan raise the very
same exception value `ffmpegFailed "trim" 1` — the re-raised failure names
the operation and exit code but carries nothing identifying the position in
the plan, so its message cannot name that position. -/
theorem C6_failure_counterexample :
    (run_tasks (envFailAt 0) "in.mp4" [trimTask] "out.mp4").2 =
      .error (.ffmpegFailed "trim" 1) ∧
    (run_tasks (envFailAt 1) "in.mp4" [trimTask, trimTask] "out.mp4").2 =
      .error (.ffmpegFailed "trim" 1) := ⟨rfl, rfl⟩

/-- Claim C6 (amended): whenever a recognised task reaches its FFmpeg
invocation and that invocation fails, the run aborts immediately with a typed
failure naming the operation and its exit code (but not its position): the
remaining tasks are discarded, exactly one invocation for this task was
recorded (no retry), and no artifact state changed. -/
theorem C6_failure_amended (env : Env) (i : Nat) (t : RTask) (s : ExecState)
    (rest : List RTask) (pfx nm : String)
    (hreach : ReachesFfmpeg env i t s pfx nm)
    (hfail : env.ffmpegOk i = false) :
    runTasksGo env (t :: rest) i s =
      ({ s with trace := s.trace ++ [Call.ffmpeg i nm] },
       some (ExecErr.ffmpegFailed nm (env.ffmpegCode i))) := by
  cases hreach with
  | text_overlay p hty hres =>
    simp [runTasksGo, stepTask, hty, ffmpegSimple, hres, ffmpegFinish, hfail]
  | trim p hty hres =>
    simp [runTasksGo, stepTask, hty, ffmpegSimple, hres, ffmpegFinish, hfail]
  | resize p hty hres =>
    simp [runTasksGo, stepTask, hty, ffmpegSimple, hres, ffmpegFinish, hfail]
  | change_speed p hty hres =>
    simp [runTasksGo, stepTask, hty, ffmpegSimple, hres, ffmpegFinish, hfail]
  | add_subtitles p hty hres hseg =>
    simp [runTasksGo, stepTask, hty, hres, hseg, ffmpegFinish, hfail]
  | add_image_overlay p ip hty hres hip hne hex =>
    simp [runTasksGo, stepTask, hty, hres, hip, hne, hex, ffmpegFinish, hfail]
  | auto_frame_face p hty hres =>
    simp [runTasksGo, stepTask, hty, ffmpegSimple, hres, ffmpegFinish, hfail]
  | color_correction p hty hres hnz =>
    simp [runTasksGo, stepTask, hty, hres, hnz, ffmpegFinish, hfail]
  | concat_inputs n ns ps hty hin hres hne =>
    simp [runTasksGo, stepTask, hty, hin, hres, hne, ffmpegFinish, hfail]
  | concat_clips hty hin hcl =>
    rcases hin with h | h <;>
      simp [runTasksGo, stepTask, hty, h, hcl, ffmpegFinish, hfail]
  | zoompan p hty hres =>
    simp [runTasksGo, stepTask, hty, ffmpegSimple, hres, ffmpegFinish, hfail]

/-- Witness for `C6_failure_amended`: a concrete failing `trim` at position 0
aborts the two-task plan with `ffmpegFailed "trim" 1`, the second task never
runs, and exactly one invocation was recorded. -/
theorem C6_failure_amended_witness :
    runTasksGo (envFailAt 0) [trimTask, trimTask] 0
      { registry := [("source", "in.mp4")], current := "in.mp4", temps := [],
        disk := [("in.mp4", 0)], trace := [] } =
      ({ registry := [("source", "in.mp4")], current := "in.mp4", temps := [],
         disk := [("in.mp4", 0)], trace := [Call.ffmpeg 0 "trim"] },
       some (ExecErr.ffmpegFailed "trim" 1)) :=
  C6_failure_amended (envFailAt 0) 0 trimTask
    { registry := [("source", "in.mp4")], current := "in.mp4", temps := [],
      disk := [("in.mp4", 0)], trace := [] }
    [trimTask] "step_trim" "trim" (ReachesFfmpeg.trim "in.mp4" rfl rfl) rfl

/-! Helper lemmas about the registry and the FFmpeg branch tails. -/

theorem alookup_append_right {α : Type} (r l : List (String × α)) (k : String)
    (h : alookup r k = none) : alookup (r ++ l) k = alookup l k := by
  induction r with
  | nil => simp
  | cons e rest ih =>
    simp only [alookup] at h
    by_cases he : e.1 = k
    · simp [he] at h
    · simp only [if_neg he] at h
      simpa [alookup, he] using ih h

theorem alookup_registryUpdate_self (r : List (String × String)) (k v : String) :
    alookup (registryUpdate r k v) k = some v := by
  unfold registryUpdate
  by_cases h : (alookup r k).isSome
  · rw [if_pos h]
    induction r with
    | nil => simp [alookup] at h
    | cons e rest ih =>
      by_cases he : e.1 = k
      · simp [alookup, he]
      · simp only [alookup, if_neg he, Option.isSome] at h
        simpa [alookup, he] using ih h
  · rw [if_neg h]
    have hn : alookup r k = none := by
      rcases hr : alookup r k with _ | v'
      · rfl
      · rw [hr] at h; simp at h
    rw [alookup_append_right r [(k, v)] k hn]
    simp [alookup]

theorem register_advance_current (t : RTask) (out : String) (s : ExecState) :
    (_register t out true s).current = out ∧ (_register t out true s).temps = s.temps := by
  unfold _register
  rcases t.output_id with _ | oid
  · simp
  · by_cases h : oid = "" <;> simp [h]

theorem ffmpegFinish_ok (env : Env) (i : Nat) (t : RTask) (s : ExecState) (pfx nm : String)
    (hok : env.ffmpegOk i = true) :
    (ffmpegFinish env i t s pfx nm).2 = none ∧
    (ffmpegFinish env i t s pfx nm).1.current = tempName i pfx ∧
    tempName i pfx ∈ (ffmpegFinish env i t s pfx nm).1.temps := by
  rcases ho : t.output_id with _ | oid
  · simp [ffmpegFinish, hok, _register, ho]
  · by_cases he : oid = "" <;> simp [ffmpegFinish, hok, _register, ho, he]

theorem reaches_stepTask (env : Env) (i : Nat) (t : RTask) (s : ExecState)
    (pfx nm : String) (h : ReachesFfmpeg env i t s pfx nm) :
    stepTask env i t s = ffmpegFinish env i t s pfx nm := by
  cases h with
  | text_overlay p hty hres => simp [stepTask, hty, ffmpegSimple, hres]
  | trim p hty hres => simp [stepTask, hty, ffmpegSimple, hres]
  | resize p hty hres => simp [stepTask, hty, ffmpegSimple, hres]
  | change_speed p hty hres => simp [stepTask, hty, ffmpegSimple, hres]
  | add_subtitles p hty hres hseg => simp [stepTask, hty, hres, hseg]
  | add_image_overlay p ip hty hres hip hne hex => simp [stepTask, hty, hres, hip, hne, hex]
  | auto_frame_face p hty hres => simp [stepTask, hty, ffmpegSimple, hres]
  | color_correction p hty hres hnz => simp [stepTask, hty, hres, hnz]
  | concat_inputs n ns ps hty hin hres hne => simp [stepTask, hty, hin, hres, hne]
  | concat_clips hty hin hcl =>
    rcases hin with h' | h' <;> simp [stepTask, hty, h', hcl]
  | zoompan p hty hres => simp [stepTask, hty, ffmpegSimple, hres]

/-! Claim C7. -/

/-- Claim C7 (confirmed): a successful fetch task with a truthy `output_id`
publishes the downloaded artifact in the registry under that id but leaves
the main-chain pointer `current` unchanged, whereas every other recognised
task that executes (reaches its FFmpeg invocation and succeeds, or takes the
no-op `color_correction` copy path) sets `current` to its newly produced
scratch artifact. -/
theorem C7_side_producing (env : Env) (i : Nat) (t : RTask) (s : ExecState) :
    (∀ mt q p oid,
      ((t.type? = some "fetch_stock_video" ∧ mt = "video") ∨
       (t.type? = some "fetch_stock_image" ∧ mt = "image")) →
      (t.params?.getD {}).query.getD "" = q → q ≠ "" →
      env.fetchResult i = some p →
      t.output_id = some oid → oid ≠ "" →
      (stepTask env i t s =
        ({ s with trace := s.trace ++ [Call.fetchMedia i mt q],
                  temps := s.temps ++ [p],
                  disk := diskSet s.disk p (i + 1),
                  registry := registryUpdate s.registry oid p }, none) ∧
       alookup (stepTask env i t s).1.registry oid = some p ∧
       (stepTask env i t s).1.current = s.current)) ∧
    (∀ pfx nm, ReachesFfmpeg env i t s pfx nm → env.ffmpegOk i = true →
      (stepTask env i t s).2 = none ∧
      (stepTask env i t s).1.current = tempName i pfx ∧
      tempName i pfx ∈ (stepTask env i t s).1.temps) ∧
    (∀ src, t.type? = some "color_correction" → _resolve_input t s = .ok src →
      (t.params?.getD {}).brightness.getD 0 = 0 →
      (t.params?.getD {}).contrast.getD 0 = 0 →
      (t.params?.getD {}).saturation.getD 0 = 0 →
      (stepTask env i t s).2 = none ∧
      (stepTask env i t s).1.current = tempName i "step_color") := by
  refine ⟨?_, ?_, ?_⟩
  · intro mt q p oid hkind hq hqne hf ho hone
    have hstep : stepTask env i t s =
        ({ s with trace := s.trace ++ [Call.fetchMedia i mt q],
                  temps := s.temps ++ [p],
                  disk := diskSet s.disk p (i + 1),
                  registry := registryUpdate s.registry oid p }, none) := by
      rcases hkind with ⟨hty, rfl⟩ | ⟨hty, rfl⟩ <;>
        simp [stepTask, hty, fetchStep, hq, hqne, hf, _register, ho, hone]
    refine ⟨hstep, ?_, ?_⟩
    · rw [hstep]
      exact alookup_registryUpdate_self s.registry oid p
    · rw [hstep]
  · intro pfx nm hreach hok
    rw [reaches_stepTask env i t s pfx nm hreach]
    exact ffmpegFinish_ok env i t s pfx nm hok
  · intro src hty hres hb hc hsat
    have hstep : stepTask env i t s =
        (_register t (tempName i "step_color") true
          { s with disk := diskSet s.disk (tempName i "step_color")
                     ((alookup s.disk src).getD 0),
                   temps := s.temps ++ [tempName i "step_color"] }, none) := by
      simp [stepTask, hty, hres, hb, hc, hsat]
    rw [hstep]
    exact ⟨rfl, (register_advance_current t _ _).1⟩

/-- Witness for `C7_side_producing`: a concrete successful
`fetch_stock_video` leaves `current` at the source while registering the
download under its id, and a concrete successful `trim` advances `current`
to its scratch artifact. -/
theorem C7_side_producing_witness :
    ((stepTask envAllOk 0 (fetchVid "b1" "ocean")
        { registry := [("source", "in.mp4")], current := "in.mp4", temps := [],
          disk := [("in.mp4", 0)], trace := [] }).1.current = "in.mp4" ∧
     alookup (stepTask envAllOk 0 (fetchVid "b1" "ocean")
        { registry := [("source", "in.mp4")], current := "in.mp4", temps := [],
          disk := [("in.mp4", 0)], trace := [] }).1.registry "b1" = some "dl_0") ∧
    ((stepTask envAllOk 0 trimTask
        { registry := [("source", "in.mp4")], current := "in.mp4", temps := [],
          disk := [("in.mp4", 0)], trace := [] }).2 = none ∧
     (stepTask envAllOk 0 trimTask
        { registry := [("source", "in.mp4")], current := "in.mp4", temps := [],
          disk := [("in.mp4", 0)], trace := [] }).1.current = tempName 0 "step_trim") := by
  have h1 := (C7_side_producing envAllOk 0 (fetchVid "b1" "ocean")
      { registry := [("source", "in.mp4")], current := "in.mp4", temps := [],
        disk := [("in.mp4", 0)], trace := [] }).1 "video" "ocean" "dl_0" "b1"
      (Or.inl ⟨rfl, rfl⟩) rfl (by decide) rfl rfl (by decide)
  have h2 := (C7_side_producing envAllOk 0 trimTask
      { registry := [("source", "in.mp4")], current := "in.mp4", temps := [],
        disk := [("in.mp4", 0)], trace := [] }).2.1 "step_trim" "trim"
      (ReachesFfmpeg.trim "in.mp4" rfl rfl) rfl
  exact ⟨⟨h1.2.2, h1.2.1⟩, ⟨h2.1, h2.2.1⟩⟩

/-! Helper lemmas about the plan repairer. -/

theorem enum_snd_mem {α : Type} :
    ∀ (l : List α) (n : Nat) (p : Nat × α), p ∈ l.enumFrom n → p.2 ∈ l := by
  intro l
  induction l with
  | nil => intro n p hp; simp [List.enumFrom] at hp
  | cons x xs ih =>
    intro n p hp
    rcases List.mem_cons.mp hp with h | h
    · subst h; exact List.mem_cons_self _ _
    · exact List.mem_cons_of_mem _ (ih (n + 1) p h)

theorem ovIdxE_eq (n : Nat) (ts : List RTask)
    (h : ∀ t ∈ ts, t.type?.isSome = true) :
    ovIdxE (ts.enumFrom n) = .ok (ovIdxFrom n ts) := by
  induction ts generalizing n with
  | nil => simp [List.enumFrom, ovIdxE, ovIdxFrom]
  | cons t rest ih =>
    obtain ⟨τ, hτ⟩ := Option.isSome_iff_exists.mp (h t (List.mem_cons_self _ _))
    have hrest : ∀ u ∈ rest, u.type?.isSome = true :=
      fun u hu => h u (List.mem_cons_of_mem _ hu)
    by_cases hov : τ = "overlay_video"
    · subst hov
      simp [List.enumFrom, ovIdxE, dictType, hτ, ih (n + 1) hrest, ovIdxFrom,
        Bind.bind, Except.bind]
    · have hov2 : ¬ t.type? = some "overlay_video" := by
        rw [hτ]; simpa using hov
      simp [List.enumFrom, ovIdxE, dictType, hτ, hov, ih (n + 1) hrest, ovIdxFrom, hov2,
        Bind.bind, Except.bind]

theorem ovIdxFrom_length (n : Nat) (ts : List RTask) :
    (ovIdxFrom n ts).length =
      (ts.filter (fun t => decide (t.type? = some "overlay_video"))).length := by
  induction ts generalizing n with
  | nil => simp [ovIdxFrom]
  | cons t rest ih =>
    by_cases hov : t.type? = some "overlay_video" <;>
      simp [ovIdxFrom, hov, List.filter, ih (n + 1)]

theorem ovIdxFrom_mem :
    ∀ (ts : List RTask) (n j : Nat), j ∈ ovIdxFrom n ts →
      n ≤ j ∧ (ts.getD (j - n) {}) ∈ ts ∧
        (ts.getD (j - n) {}).type? = some "overlay_video" := by
  intro ts
  induction ts with
  | nil => intro n j hj; simp [ovIdxFrom] at hj
  | cons t rest ih =>
    intro n j hj
    by_cases hov : t.type? = some "overlay_video"
    · simp only [ovIdxFrom, if_pos hov] at hj
      rcases List.mem_cons.mp hj with h | h
      · subst h
        refine ⟨Nat.le_refl _, ?_, ?_⟩ <;> simp [hov]
      · obtain ⟨h1, h2, h3⟩ := ih (n + 1) j h
        have hd : j - n = (j - (n + 1)) + 1 := by omega
        rw [hd]
        exact ⟨by omega, List.mem_cons_of_mem _ (by simpa using h2), by simpa using h3⟩
    · simp only [ovIdxFrom, if_neg hov] at hj
      obtain ⟨h1, h2, h3⟩ := ih (n + 1) j hj
      have hd : j - n = (j - (n + 1)) + 1 := by omega
      rw [hd]
      exact ⟨by omega, List.mem_cons_of_mem _ (by simpa using h2), by simpa using h3⟩

theorem pass1go_wf (tasks : List RTask) :
    ∀ (counter : Nat), WellFormedPlan tasks →
      ∃ out, pass1go counter tasks = .ok out ∧ WellFormedPlan out := by
  induction tasks with
  | nil => exact fun counter _ => ⟨[], rfl, by simp [WellFormedPlan]⟩
  | cons t rest ih =>
    intro counter hwf
    obtain ⟨τ, hτ⟩ := Option.isSome_iff_exists.mp (hwf t (List.mem_cons_self _ _)).1
    have hrest : WellFormedPlan rest := fun u hu => hwf u (List.mem_cons_of_mem _ hu)
    by_cases hc : (τ = "fetch_stock_video" ∨ τ = "fetch_stock_image") ∧
        truthyId t.output_id = false
    · obtain ⟨out, hout, hwfout⟩ := ih (counter + 1) hrest
      refine ⟨{ t with output_id := some ("stock_" ++ toString (counter + 1)) } :: out,
        ?_, ?_⟩
      · simp [pass1go, dictType, hτ, hc, hout, Bind.bind, Except.bind]
      · intro u hu
        rcases List.mem_cons.mp hu with h | h
        · subst h
          exact ⟨(hwf t (List.mem_cons_self _ _)).1, (hwf t (List.mem_cons_self _ _)).2⟩
        · exact hwfout u h
    · obtain ⟨out, hout, hwfout⟩ := ih counter hrest
      refine ⟨t :: out, ?_, ?_⟩
      · simp [pass1go, dictType, hτ, hc, hout, Bind.bind, Except.bind]
      · intro u hu
        rcases List.mem_cons.mp hu with h | h
        · exact h ▸ hwf t (List.mem_cons_self _ _)
        · exact hwfout u h

theorem fixOverlay_wf (rules : Rules) (t : RTask)
    (h1 : t.type?.isSome = true)
    (h2 : t.type? = some "overlay_video" → t.params?.isSome = true) :
    ∃ t', fixOverlay rules t = .ok t' ∧ t'.type? = t.type? ∧
      (t'.params?.isSome = t.params?.isSome) := by
  obtain ⟨τ, hτ⟩ := Option.isSome_iff_exists.mp h1
  by_cases hov : τ = "overlay_video"
  · subst hov
    obtain ⟨p, hp⟩ := Option.isSome_iff_exists.mp (h2 hτ)
    by_cases hlt : p.end_time.getD (p.start_time.getD 0 + rules.min_duration) -
        p.start_time.getD 0 < rules.min_duration
    · have hfo : fixOverlay rules t = .ok { t with params? := some { p with end_time := some (roundTo1 (p.start_time.getD 0 + rules.min_duration)) } } := by
        simp [fixOverlay, dictType, dictParams, hτ, hp, hlt, Bind.bind, Except.bind]
      exact ⟨_, hfo, by simp, by simp [hp]⟩
    · by_cases hgt : rules.max_duration <
          p.end_time.getD (p.start_time.getD 0 + rules.min_duration) - p.start_time.getD 0
      · have hfo : fixOverlay rules t = .ok { t with params? := some { p with end_time := some (roundTo1 (p.start_time.getD 0 + rules.max_duration)) } } := by
          simp [fixOverlay, dictType, dictParams, hτ, hp, hlt, hgt, Bind.bind, Except.bind]
        exact ⟨_, hfo, by simp, by simp [hp]⟩
      · refine ⟨t, ?_, rfl, rfl⟩
        simp [fixOverlay, dictType, dictParams, hτ, hp, hlt, hgt, Bind.bind, Except.bind]
  · refine ⟨t, ?_, rfl, rfl⟩
    simp [fixOverlay, dictType, hτ, hov, Bind.bind, Except.bind]

theorem pass2_wf (rules : Rules) (tasks : List RTask) (hwf : WellFormedPlan tasks) :
    ∃ out, pass2 rules tasks = .ok out ∧ WellFormedPlan out := by
  induction tasks with
  | nil => exact ⟨[], rfl, by simp [WellFormedPlan]⟩
  | cons t rest ih =>
    have hrest : WellFormedPlan rest := fun u hu => hwf u (List.mem_cons_of_mem _ hu)
    obtain ⟨out, hout, hwfout⟩ := ih hrest
    obtain ⟨t', ht', hty, hpar⟩ := fixOverlay_wf rules t
      (hwf t (List.mem_cons_self _ _)).1 (hwf t (List.mem_cons_self _ _)).2
    refine ⟨t' :: out, ?_, ?_⟩
    · simp [pass2, ht', hout, Bind.bind, Except.bind]
    · intro u hu
      rcases List.mem_cons.mp hu with h | h
      · subst h
        refine ⟨by rw [hty]; exact (hwf t (List.mem_cons_self _ _)).1, fun hov => ?_⟩
        rw [hpar]
        exact (hwf t (List.mem_cons_self _ _)).2 (by rw [← hty]; exact hov)
      · exact hwfout u h

theorem excessSidsE_ok (ts : List RTask) (hwf : WellFormedPlan ts) :
    ∀ idxs : List Nat, (∀ j ∈ idxs, j ∈ ovIdxFrom 0 ts) →
      ∃ out, excessSidsE ts idxs = .ok out := by
  intro idxs
  induction idxs with
  | nil => exact fun _ => ⟨[], rfl⟩
  | cons j rest ih =>
    intro hj
    obtain ⟨-, hmem, hty⟩ := ovIdxFrom_mem ts 0 j (hj j (List.mem_cons_self _ _))
    rw [Nat.sub_zero] at hmem hty
    have hp : (ts.getD j {}).params?.isSome = true := (hwf _ hmem).2 hty
    obtain ⟨p, hp'⟩ := Option.isSome_iff_exists.mp hp
    obtain ⟨out, hout⟩ := ih (fun u hu => hj u (List.mem_cons_of_mem _ hu))
    have hdp : dictParams (ts.getD j {}) = .ok p := by unfold dictParams; rw [hp']
    refine ⟨p.stock_id :: out, ?_⟩
    simp only [excessSidsE]
    rw [hdp, hout]
    rfl

theorem filterSnd_ok (excess : List Nat) (sids : List (Option String)) :
    ∀ l : List (Nat × RTask), (∀ p ∈ l, p.2.type?.isSome = true) →
      ∃ out, filterSnd excess sids l = .ok out := by
  intro l
  induction l with
  | nil => exact fun _ => ⟨[], rfl⟩
  | cons e rest ih =>
    intro h
    rcases e with ⟨j, t⟩
    obtain ⟨τ, hτ⟩ := Option.isSome_iff_exists.mp (h (j, t) (List.mem_cons_self _ _))
    have hτ2 : t.type? = some τ := hτ
    obtain ⟨out, hout⟩ := ih (fun u hu => h u (List.mem_cons_of_mem _ hu))
    have hdt : dictType t = .ok τ := by unfold dictType; rw [hτ2]
    refine ⟨if j ∉ excess ∧ ¬(τ = "fetch_stock_video" ∧ t.output_id ∈ sids) then t :: out
      else out, ?_⟩
    simp only [filterSnd]
    rw [hdt, hout]
    rfl

theorem pass3_ok (rules : Rules) (ts : List RTask) (hwf : WellFormedPlan ts) :
    ∃ out, pass3 rules ts = .ok out := by
  have htypes : ∀ t ∈ ts, t.type?.isSome = true := fun t ht => (hwf t ht).1
  have hov := ovIdxE_eq 0 ts htypes
  by_cases hlen : rules.max_inserts < (ovIdxFrom 0 ts).length
  · obtain ⟨sids, hsids⟩ := excessSidsE_ok ts hwf ((ovIdxFrom 0 ts).drop rules.max_inserts)
      (fun j hj => List.drop_subset _ _ hj)
    obtain ⟨out, hout⟩ := filterSnd_ok ((ovIdxFrom 0 ts).drop rules.max_inserts) sids
      (ts.enumFrom 0) (fun p hp => htypes p.2 (enum_snd_mem ts 0 p hp))
    exact ⟨out, by simp [pass3, List.enum, hov, hlen, hsids, hout, Bind.bind, Except.bind]⟩
  · exact ⟨ts, by simp [pass3, List.enum, hov, hlen, Bind.bind, Except.bind]⟩

theorem pass1go_noop (tasks : List RTask) : ∀ counter : Nat,
    (∀ t ∈ tasks, t.type?.isSome = true) → FetchIdsTruthy tasks →
    pass1go counter tasks = .ok tasks := by
  induction tasks with
  | nil => intro counter _ _; rfl
  | cons t rest ih =>
    intro counter h1 h2
    obtain ⟨τ, hτ⟩ := Option.isSome_iff_exists.mp (h1 t (List.mem_cons_self _ _))
    have hcond : ¬((τ = "fetch_stock_video" ∨ τ = "fetch_stock_image") ∧
        truthyId t.output_id = false) := by
      rintro ⟨hk, hid⟩
      have ht : truthyId t.output_id = true := by
        apply h2 t (List.mem_cons_self _ _)
        rcases hk with h | h
        · left; rw [hτ, h]
        · right; rw [hτ, h]
      rw [ht] at hid
      simp at hid
    have hrest := ih counter (fun u hu => h1 u (List.mem_cons_of_mem _ hu))
      (fun u hu => h2 u (List.mem_cons_of_mem _ hu))
    simp [pass1go, dictType, hτ, hcond, hrest, Bind.bind, Except.bind]

theorem fixOverlay_noop (rules : Rules) (t : RTask)
    (h1 : t.type?.isSome = true)
    (h2 : t.type? = some "overlay_video" → t.params?.isSome = true)
    (h3 : t.type? = some "overlay_video" →
      rules.min_duration ≤ overlayDur rules (t.params?.getD {}) ∧
      overlayDur rules (t.params?.getD {}) ≤ rules.max_duration) :
    fixOverlay rules t = .ok t := by
  obtain ⟨τ, hτ⟩ := Option.isSome_iff_exists.mp h1
  by_cases hov : τ = "overlay_video"
  · subst hov
    obtain ⟨p, hp⟩ := Option.isSome_iff_exists.mp (h2 hτ)
    obtain ⟨hlo, hhi⟩ := h3 hτ
    rw [hp] at hlo hhi
    simp only [Option.getD_some] at hlo hhi
    have hlt : ¬(p.end_time.getD (p.start_time.getD 0 + rules.min_duration) -
        p.start_time.getD 0 < rules.min_duration) := not_lt.mpr hlo
    have hgt : ¬(rules.max_duration <
        p.end_time.getD (p.start_time.getD 0 + rules.min_duration) -
          p.start_time.getD 0) := not_lt.mpr hhi
    simp [fixOverlay, dictType, dictParams, hτ, hp, hlt, hgt, Bind.bind, Except.bind]
  · simp [fixOverlay, dictType, hτ, hov, Bind.bind, Except.bind]

theorem pass2_noop (rules : Rules) (tasks : List RTask)
    (hwf : WellFormedPlan tasks) (hdur : OverlayDurValid rules tasks) :
    pass2 rules tasks = .ok tasks := by
  induction tasks with
  | nil => rfl
  | cons t rest ih =>
    have hfix := fixOverlay_noop rules t (hwf t (List.mem_cons_self _ _)).1
      (hwf t (List.mem_cons_self _ _)).2 (hdur t (List.mem_cons_self _ _))
    have hrest := ih (fun u hu => hwf u (List.mem_cons_of_mem _ hu))
      (fun u hu => hdur u (List.mem_cons_of_mem _ hu))
    simp [pass2, hfix, hrest, Bind.bind, Except.bind]

theorem pass3_noop (rules : Rules) (ts : List RTask)
    (h1 : ∀ t ∈ ts, t.type?.isSome = true)
    (hcount : (ts.filter (fun t => decide (t.type? = some "overlay_video"))).length ≤
      rules.max_inserts) :
    pass3 rules ts = .ok ts := by
  have hov := ovIdxE_eq 0 ts h1
  have hlen : ¬(rules.max_inserts < (ovIdxFrom 0 ts).length) := by
    rw [ovIdxFrom_length]; omega
  simp [pass3, List.enum, hov, hlen, Bind.bind, Except.bind]

/-! Claim C3. -/

/-- Claim C3 (confirmed): the plan repairer is idempotent on already-valid
plans — when every task has its keys, every fetch task has a truthy
`output_id`, every overlay duration lies within
`[min_duration, max_duration]` and the number of overlays does not exceed
`max_inserts`, `validate_and_fix_plan` returns the list unchanged. -/
theorem C3_repairer_idempotent (tasks : List RTask) (rules : Rules)
    (hwf : WellFormedPlan tasks) (hfetch : FetchIdsTruthy tasks)
    (hdur : OverlayDurValid rules tasks)
    (hcount : (tasks.filter (fun t => decide (t.type? = some "overlay_video"))).length ≤
      rules.max_inserts) :
    validate_and_fix_plan tasks rules = .ok tasks := by
  have h1 := pass1go_noop tasks 0 (fun t ht => (hwf t ht).1) hfetch
  have h2 := pass2_noop rules tasks hwf hdur
  have h3 := pass3_noop rules tasks (fun t ht => (hwf t ht).1) hcount
  simp [validate_and_fix_plan, h1, h2, h3, Bind.bind, Except.bind]

/-- Witness for `C3_repairer_idempotent`: a concrete valid fetch+overlay
plan passes through the repairer without change. -/
theorem C3_repairer_idempotent_witness :
    (WellFormedPlan [fetchVid "s1" "q", overlayVid 10 (29/2) "s1"] ∧
     FetchIdsTruthy [fetchVid "s1" "q", overlayVid 10 (29/2) "s1"] ∧
     OverlayDurValid BROLL_RULES [fetchVid "s1" "q", overlayVid 10 (29/2) "s1"]) ∧
    validate_and_fix_plan [fetchVid "s1" "q", overlayVid 10 (29/2) "s1"] BROLL_RULES =
      .ok [fetchVid "s1" "q", overlayVid 10 (29/2) "s1"] :=
  ⟨⟨by decide, by decide,
    by norm_num [OverlayDurValid, overlayDur, fetchVid, overlayVid, BROLL_RULES]⟩,
   C3_repairer_idempotent [fetchVid "s1" "q", overlayVid 10 (29/2) "s1"] BROLL_RULES
     (by decide) (by decide)
     (by norm_num [OverlayDurValid, overlayDur, fetchVid, overlayVid, BROLL_RULES]) (by decide)⟩

/-! Claim C9. -/

/-- Claim C9 (counterexample): `validate_and_fix_plan` is not total on
malformed task dicts — a task without a `type` key makes the very first pass
raise `KeyError`. -/
theorem C9_total_counterexample :
    validate_and_fix_plan [{}] BROLL_RULES = .error "KeyError: type" := rfl

/-- Claim C9 (amended): `validate_and_fix_plan` never raises on task lists
in which every task has a `type` key and every `overlay_video` task has a
`params` dict (with the numeric timing fields the upstream normalizer
guarantees); on such lists its effect is purely corrective. -/
theorem C9_total_amended (tasks : List RTask) (rules : Rules)
    (hwf : WellFormedPlan tasks) :
    ∃ out, validate_and_fix_plan tasks rules = .ok out := by
  obtain ⟨t1, ht1, hwf1⟩ := pass1go_wf tasks 0 hwf
  obtain ⟨t2, ht2, hwf2⟩ := pass2_wf rules t1 hwf1
  obtain ⟨out, hout⟩ := pass3_ok rules t2 hwf2
  exact ⟨out, by simp [validate_and_fix_plan, ht1, ht2, hout, Bind.bind, Except.bind]⟩

/-- Witness for `C9_total_amended`: a concrete well-formed plan (whose
overlay duration is out of bounds, so the repairer does correct it) yields a
result instead of raising. -/
theorem C9_total_amended_witness :
    WellFormedPlan [trimTask, overlayVid 10 99 "s9"] ∧
    (∃ out, validate_and_fix_plan [trimTask, overlayVid 10 99 "s9"] BROLL_RULES =
      .ok out) :=
  ⟨by decide, C9_total_amended [trimTask, overlayVid 10 99 "s9"] BROLL_RULES (by decide)⟩

/-! Helper lemmas about the stock-media fallback search. -/

theorem dedupFirstAux_sublist :
    ∀ (l seen : List String), List.Sublist (dedupFirstAux seen l) l := by
  intro l
  induction l with
  | nil => intro seen; simp [dedupFirstAux]
  | cons q rest ih =>
    intro seen
    by_cases h : q ∈ seen
    · simp only [dedupFirstAux, if_pos h]
      exact (ih seen).cons q
    · simp only [dedupFirstAux, if_neg h]
      exact (ih (q :: seen)).cons₂ q

theorem dedupFirstAux_not_seen : ∀ (l seen : List String) (x : String),
    x ∈ dedupFirstAux seen l → x ∉ seen := by
  intro l
  induction l with
  | nil => intro seen x hx; simp [dedupFirstAux] at hx
  | cons q rest ih =>
    intro seen x hx
    by_cases h : q ∈ seen
    · rw [dedupFirstAux, if_pos h] at hx
      exact ih seen x hx
    · rw [dedupFirstAux, if_neg h] at hx
      rcases List.mem_cons.mp hx with rfl | hx'
      · exact h
      · have := ih (q :: seen) x hx'
        exact fun hs => this (List.mem_cons_of_mem _ hs)

theorem dedupFirstAux_nodup : ∀ (l seen : List String), (dedupFirstAux seen l).Nodup := by
  intro l
  induction l with
  | nil => intro seen; simp [dedupFirstAux]
  | cons q rest ih =>
    intro seen
    by_cases h : q ∈ seen
    · rw [dedupFirstAux, if_pos h]; exact ih seen
    · rw [dedupFirstAux, if_neg h]
      refine List.nodup_cons.mpr ⟨?_, ih (q :: seen)⟩
      intro hq
      exact dedupFirstAux_not_seen rest (q :: seen) q hq (List.mem_cons_self _ _)

theorem dedupFirstAux_mem : ∀ (l seen : List String) (x : String),
    x ∈ l → x ∉ seen → x ∈ dedupFirstAux seen l := by
  intro l
  induction l with
  | nil => intro seen x hx; simp at hx
  | cons q rest ih =>
    intro seen x hx hs
    by_cases h : q ∈ seen
    · rw [dedupFirstAux, if_pos h]
      rcases List.mem_cons.mp hx with rfl | hx'
      · exact absurd h hs
      · exact ih seen x hx' hs
    · rw [dedupFirstAux, if_neg h]
      rcases List.mem_cons.mp hx with rfl | hx'
      · exact List.mem_cons_self _ _
      · by_cases hxq : x = q
        · subst hxq; exact List.mem_cons_self _ _
        · exact List.mem_cons_of_mem _ (ih (q :: seen) x hx' (by simp [hxq, hs]))

theorem fetchLoop_exhaust (search : String → List Video) :
    ∀ (qs tried : List String), (∀ q ∈ qs, search q = []) →
      fetchLoop search tried qs = (tried ++ qs, []) := by
  intro qs
  induction qs with
  | nil => intro tried _; simp [fetchLoop]
  | cons q rest ih =>
    intro tried h
    have hq : search q = [] := h q (List.mem_cons_self _ _)
    have := ih (tried ++ [q]) (fun r hr => h r (List.mem_cons_of_mem _ hr))
    simp [fetchLoop, hq, this]

theorem fetchLoop_stop (search : String → List Video) :
    ∀ (pre : List String) (tried : List String) (q : String) (post : List String),
      (∀ r ∈ pre, search r = []) → search q ≠ [] →
      fetchLoop search tried (pre ++ q :: post) = (tried ++ pre ++ [q], search q) := by
  intro pre
  induction pre with
  | nil => intro tried q post _ hq; simp [fetchLoop, hq]
  | cons r rest ih =>
    intro tried q post h hq
    have hr : search r = [] := h r (List.mem_cons_self _ _)
    have := ih (tried ++ [r]) q post (fun u hu => h u (List.mem_cons_of_mem _ hu)) hq
    simp [fetchLoop, hr, this]

/-! Claim C8. -/

/-- Claim C8 (counterexample): for the query `sunny old beach` (exactly two
long words) the fallback list is `[sunny old beach, sunny]` — the claimed
shortened form made of the first two long words (`sunny beach`) is never
tried, because the code adds the two-word form only when more than two long
words exist. -/
theorem C8_fallback_counterexample :
    _fallback_queries "sunny old beach" [] = ["sunny old beach", "sunny"] ∧
    "sunny beach" ∉ _fallback_queries "sunny old beach" [] := ⟨by decide, by decide⟩

/-- Claim C8 (amended): the fallback list starts with the primary query,
contains no duplicates (first occurrence kept), and is an order-preserving
selection of: the primary query, then each alternative that is non-blank
after trimming and differs from the primary (appended trimmed), then the
first two long words joined (only when more than two long words exist), then
the first long word (when more than one exists); every such candidate
appears in it.  The fetch tries the list in order, stops at the first query
with results, and returns no result after exhausting the list. -/
theorem C8_fallback_amended (env : StockEnv) (query : String) (alternatives : List String) :
    ((_fallback_queries query alternatives).head? = some query) ∧
    (_fallback_queries query alternatives).Nodup ∧
    List.Sublist (_fallback_queries query alternatives)
      ([query] ++ alternatives.filterMap
          (fun alt => if alt ≠ "" ∧ pyStrip alt ≠ "" ∧ alt ≠ query then some (pyStrip alt)
            else none) ++
        ((if 2 < (longWords query).length
          then [String.intercalate " " ((longWords query).take 2)] else []) ++
         (if 1 < (longWords query).length then [(longWords query).headD ""] else []))) ∧
    (∀ x ∈ [query] ++ alternatives.filterMap
          (fun alt => if alt ≠ "" ∧ pyStrip alt ≠ "" ∧ alt ≠ query then some (pyStrip alt)
            else none) ++
        ((if 2 < (longWords query).length
          then [String.intercalate " " ((longWords query).take 2)] else []) ++
         (if 1 < (longWords query).length then [(longWords query).headD ""] else [])),
      x ∈ _fallback_queries query alternatives) ∧
    (∀ pre q post, _fallback_queries query alternatives = pre ++ q :: post →
      (∀ r ∈ pre, env.search r = []) → env.search q ≠ [] →
      fetchLoop env.search [] (_fallback_queries query alternatives) =
        (pre ++ [q], env.search q)) ∧
    ((∀ q ∈ _fallback_queries query alternatives, env.search q = []) →
      ∀ dest_dir, _fetch_video env query dest_dir alternatives =
        (_fallback_queries query alternatives, none)) := by
  refine ⟨?_, ?_, ?_, ?_, ?_, ?_⟩
  · simp [_fallback_queries, dedupFirstAux]
  · exact dedupFirstAux_nodup _ []
  · exact dedupFirstAux_sublist _ []
  · intro x hx
    exact dedupFirstAux_mem _ [] x (by simpa [_fallback_queries] using hx)
      (List.not_mem_nil x)
  · intro pre q post hdec hpre hq
    rw [hdec]
    simpa using fetchLoop_stop env.search pre [] q post hpre hq
  · intro hall dest_dir
    unfold _fetch_video
    rw [fetchLoop_exhaust env.search _ [] hall]
    simp

/-- Witness for `C8_fallback_amended`: against a stock source that only
answers the query `sunny`, the fetch for primary query `sunny old beach`
with one alternative tries `sunny old beach`, then the trimmed alternative
`beach waves`, then the shortened `sunny`, and stops there with its
results. -/
theorem C8_fallback_amended_witness :
    fetchLoop (fun q => if q = "sunny"
        then [{ video_files := [{ width := 100, link := "l" }] }] else ([] : List Video)) []
      (_fallback_queries "sunny old beach" ["  beach waves  "]) =
      (["sunny old beach", "beach waves", "sunny"],
       [{ video_files := [{ width := 100, link := "l" }] }]) := by
  have h := (C8_fallback_amended
      { search := fun q => if q = "sunny"
          then [{ video_files := [{ width := 100, link := "l" }] }] else ([] : List Video),
        now := 7 } "sunny old beach" ["  beach waves  "]).2.2.2.2.1
    ["sunny old beach", "beach waves"] "sunny" [] (by decide) (by decide) (by decide)
  simpa using h

/-! Helper lemmas about the third repair pass (overlay truncation). -/

theorem ovIdxFrom_append : ∀ (pre ts : List RTask) (n : Nat),
    ovIdxFrom n (pre ++ ts) = ovIdxFrom n pre ++ ovIdxFrom (n + pre.length) ts := by
  intro pre
  induction pre with
  | nil => intro ts n; simp [ovIdxFrom]
  | cons t rest ih =>
    intro ts n
    by_cases hov : t.type? = some "overlay_video" <;>
      simp [ovIdxFrom, hov, ih ts (n + 1), Nat.add_assoc, Nat.add_comm 1 rest.length]

theorem ovIdxFrom_lt : ∀ (l : List RTask) (n j : Nat), j ∈ ovIdxFrom n l → j < n + l.length := by
  intro l
  induction l with
  | nil => intro n j hj; simp [ovIdxFrom] at hj
  | cons t rest ih =>
    intro n j hj
    by_cases hov : t.type? = some "overlay_video"
    · rw [ovIdxFrom, if_pos hov] at hj
      rcases List.mem_cons.mp hj with rfl | hj'
      · simp
      · have := ih (n + 1) j hj'
        simpa [Nat.add_comm, Nat.add_left_comm] using Nat.lt_of_lt_of_le this (by omega)
    · rw [ovIdxFrom, if_neg hov] at hj
      have := ih (n + 1) j hj
      exact Nat.lt_of_lt_of_le this (by simp; omega)

theorem getD_append_length {α : Type} : ∀ (pre : List α) (t : α) (rest : List α) (d : α),
    (pre ++ t :: rest).getD pre.length d = t := by
  intro pre
  induction pre with
  | nil => intro t rest d; rfl
  | cons x xs ih => intro t rest d; simpa using ih t rest d

theorem mem_drop_head_iff (A B : List Nat) (n k : Nat)
    (hA : ∀ x ∈ A, x < n) (hB : ∀ x ∈ B, n < x) :
    (n ∈ (A ++ n :: B).drop k ↔ k ≤ A.length) := by
  constructor
  · intro hmem
    by_contra hk
    push_neg at hk
    have hsplit : (A ++ n :: B).drop k = (n :: B).drop (k - A.length) := by
      conv_lhs => rw [show k = A.length + (k - A.length) from by omega]
      rw [List.drop_append]
    rw [hsplit] at hmem
    have hk1 : 1 ≤ k - A.length := by omega
    have : (n :: B).drop (k - A.length) = B.drop (k - A.length - 1) := by
      conv_lhs => rw [show k - A.length = (k - A.length - 1) + 1 from by omega]
      rw [List.drop_succ_cons]
    rw [this] at hmem
    have := hB n (List.drop_subset _ _ hmem)
    omega
  · intro hk
    rw [List.drop_append_of_le_length hk]
    exact List.mem_append_right _ (List.mem_cons_self _ _)

theorem not_mem_drop_sides (A B : List Nat) (n k : Nat)
    (hA : ∀ x ∈ A, x < n) (hB : ∀ x ∈ B, n < x) :
    n ∉ (A ++ B).drop k := by
  intro hmem
  rcases List.mem_append.mp (List.drop_subset _ _ hmem) with h | h
  · exact absurd (hA n h) (by omega)
  · exact absurd (hB n h) (by omega)

theorem ovIdxFrom_map_getD (full : List RTask) :
    ∀ (ts pre : List RTask), full = pre ++ ts →
      (ovIdxFrom pre.length ts).map (fun i => full.getD i {}) =
        ts.filter (fun t => decide (t.type? = some "overlay_video")) := by
  intro ts
  induction ts with
  | nil => intro pre h; simp [ovIdxFrom]
  | cons t rest ih =>
    intro pre h
    have hfull2 : full = (pre ++ [t]) ++ rest := by rw [h]; simp
    have ihr := ih (pre ++ [t]) hfull2
    have hlen : (pre ++ [t]).length = pre.length + 1 := by simp
    rw [hlen] at ihr
    by_cases hov : t.type? = some "overlay_video"
    · rw [ovIdxFrom, if_pos hov]
      simp only [List.map_cons, ihr]
      rw [h, getD_append_length]
      simp [hov]
    · rw [ovIdxFrom, if_neg hov]
      rw [ihr]
      simp [hov]

theorem excessSidsE_eq (ts : List RTask) :
    ∀ idxs : List Nat, (∀ j ∈ idxs, (ts.getD j {}).params?.isSome = true) →
      excessSidsE ts idxs = .ok (idxs.map (fun j => stockIdOf (ts.getD j {}))) := by
  intro idxs
  induction idxs with
  | nil => intro _; rfl
  | cons j rest ih =>
    intro h
    obtain ⟨p, hp⟩ := Option.isSome_iff_exists.mp (h j (List.mem_cons_self _ _))
    have hdp : dictParams (ts.getD j {}) = .ok p := by unfold dictParams; rw [hp]
    have hrest := ih (fun u hu => h u (List.mem_cons_of_mem _ hu))
    have hsid : stockIdOf (ts.getD j {}) = p.stock_id := by
      unfold stockIdOf
      rw [hp]
      rfl
    simp only [excessSidsE, List.map_cons]
    rw [hdp, hrest, hsid]
    rfl

theorem filterSnd_core (maxI : Nat) (full : List RTask) (sids : List (Option String))
    (htypes : ∀ t ∈ full, t.type?.isSome = true) :
    ∀ (ts pre : List RTask), full = pre ++ ts →
      filterSnd ((ovIdxFrom 0 full).drop maxI) sids (ts.enumFrom pre.length) =
        .ok (pass3core maxI sids
          (pre.filter (fun t => decide (t.type? = some "overlay_video"))).length ts) := by
  intro ts
  induction ts with
  | nil => intro pre h; rfl
  | cons t rest ih =>
    intro pre h
    have hmem_t : t ∈ full := by
      rw [h]; exact List.mem_append_right _ (List.mem_cons_self _ _)
    obtain ⟨τ, hτ⟩ := Option.isSome_iff_exists.mp (htypes t hmem_t)
    have hdt : dictType t = .ok τ := by unfold dictType; rw [hτ]
    have hfull2 : full = (pre ++ [t]) ++ rest := by rw [h]; simp
    have ihr := ih (pre ++ [t]) hfull2
    have hlen : (pre ++ [t]).length = pre.length + 1 := by simp
    rw [hlen] at ihr
    have hsplit : ovIdxFrom 0 full =
        ovIdxFrom 0 pre ++ ovIdxFrom pre.length (t :: rest) := by
      rw [h, ovIdxFrom_append]
      simp
    have hAlt : ∀ x ∈ ovIdxFrom 0 pre, x < pre.length := by
      intro x hx
      simpa using ovIdxFrom_lt pre 0 x hx
    have hAlen : (ovIdxFrom 0 pre).length =
        (pre.filter (fun u => decide (u.type? = some "overlay_video"))).length :=
      ovIdxFrom_length 0 pre
    have hBgt : ∀ x ∈ ovIdxFrom (pre.length + 1) rest, pre.length < x := by
      intro x hx
      have := (ovIdxFrom_mem rest (pre.length + 1) x hx).1
      omega
    by_cases hov : t.type? = some "overlay_video"
    · have hτov : τ = "overlay_video" := by
        rw [hτ] at hov; exact Option.some.inj hov
      have hcnt : ((pre ++ [t]).filter
          (fun u => decide (u.type? = some "overlay_video"))).length =
          (pre.filter (fun u => decide (u.type? = some "overlay_video"))).length + 1 := by
        simp [List.filter_append, hov]
      rw [hcnt] at ihr
      have hmem_iff : pre.length ∈ (ovIdxFrom 0 full).drop maxI ↔
          maxI ≤ (pre.filter (fun u => decide (u.type? = some "overlay_video"))).length := by
        rw [hsplit, ovIdxFrom, if_pos hov, ← hAlen]
        exact mem_drop_head_iff (ovIdxFrom 0 pre) (ovIdxFrom (pre.length + 1) rest)
          pre.length maxI hAlt hBgt
      by_cases hc : (pre.filter (fun u => decide (u.type? = some "overlay_video"))).length < maxI
      · have hnot : pre.length ∉ (ovIdxFrom 0 full).drop maxI := by
          rw [hmem_iff]; omega
        have hkeep : pre.length ∉ (ovIdxFrom 0 full).drop maxI ∧
            ¬(τ = "fetch_stock_video" ∧ t.output_id ∈ sids) := by
          refine ⟨hnot, ?_⟩
          rintro ⟨hf, -⟩
          rw [hτov] at hf
          simp at hf
        simp only [List.enumFrom, filterSnd]
        rw [hdt, ihr]
        simp only [Bind.bind, Except.bind, if_pos hkeep]
        rw [pass3core, if_pos hov, if_pos hc]
      · have hmem2 : pre.length ∈ (ovIdxFrom 0 full).drop maxI := by
          rw [hmem_iff]; omega
        have hkeep : ¬(pre.length ∉ (ovIdxFrom 0 full).drop maxI ∧
            ¬(τ = "fetch_stock_video" ∧ t.output_id ∈ sids)) := by
          rintro ⟨hn, -⟩
          exact hn hmem2
        simp only [List.enumFrom, filterSnd]
        rw [hdt, ihr]
        simp only [Bind.bind, Except.bind, if_neg hkeep]
        rw [pass3core, if_pos hov, if_neg hc]
    · have hnot : pre.length ∉ (ovIdxFrom 0 full).drop maxI := by
        intro hmem
        have hsub := List.drop_subset _ _ hmem
        have hm := ovIdxFrom_mem full 0 pre.length hsub
        rw [Nat.sub_zero, h, getD_append_length] at hm
        exact hov hm.2.2
      have hcnt : ((pre ++ [t]).filter
          (fun u => decide (u.type? = some "overlay_video"))).length =
          (pre.filter (fun u => decide (u.type? = some "overlay_video"))).length := by
        simp [List.filter_append, hov]
      rw [hcnt] at ihr
      by_cases hfetch : τ = "fetch_stock_video" ∧ t.output_id ∈ sids
      · have hkeep : ¬(pre.length ∉ (ovIdxFrom 0 full).drop maxI ∧
            ¬(τ = "fetch_stock_video" ∧ t.output_id ∈ sids)) := by
          rintro ⟨-, hn⟩
          exact hn hfetch
        have hfetch2 : t.type? = some "fetch_stock_video" ∧ t.output_id ∈ sids := by
          rw [hτ, hfetch.1]
          exact ⟨rfl, hfetch.2⟩
        simp only [List.enumFrom, filterSnd]
        rw [hdt, ihr]
        simp only [Bind.bind, Except.bind, if_neg hkeep]
        rw [pass3core, if_neg hov, if_pos hfetch2]
      · have hkeep : pre.length ∉ (ovIdxFrom 0 full).drop maxI ∧
            ¬(τ = "fetch_stock_video" ∧ t.output_id ∈ sids) := ⟨hnot, hfetch⟩
        have hfetch2 : ¬(t.type? = some "fetch_stock_video" ∧ t.output_id ∈ sids) := by
          rw [hτ]
          rintro ⟨hf, hs⟩
          exact hfetch ⟨Option.some.inj hf, hs⟩
        simp only [List.enumFrom, filterSnd]
        rw [hdt, ihr]
        simp only [Bind.bind, Except.bind, if_pos hkeep]
        rw [pass3core, if_neg hov, if_neg hfetch2]

theorem pass3core_filter (maxI : Nat) (sids : List (Option String)) :
    ∀ (ts : List RTask) (c : Nat),
      (pass3core maxI sids c ts).filter (fun t => decide (t.type? = some "overlay_video")) =
        (ts.filter (fun t => decide (t.type? = some "overlay_video"))).take (maxI - c) := by
  intro ts
  induction ts with
  | nil => intro c; simp [pass3core]
  | cons t rest ih =>
    intro c
    by_cases hov : t.type? = some "overlay_video"
    · by_cases hc : c < maxI
      · rw [pass3core, if_pos hov, if_pos hc]
        have hd : maxI - c = (maxI - (c + 1)) + 1 := by omega
        simp [hov, ih (c + 1), hd]
      · rw [pass3core, if_pos hov, if_neg hc]
        have hd : maxI - c = 0 := by omega
        have hd2 : maxI - (c + 1) = 0 := by omega
        simp [hov, ih (c + 1), hd, hd2]
    · by_cases hf : t.type? = some "fetch_stock_video" ∧ t.output_id ∈ sids
      · rw [pass3core, if_neg hov, if_pos hf]
        simp [hov, ih c]
      · rw [pass3core, if_neg hov, if_neg hf]
        simp [hov, ih c]

theorem pass3core_no_removed_fetch (maxI : Nat) (sids : List (Option String)) :
    ∀ (ts : List RTask) (c : Nat) (t : RTask), t ∈ pass3core maxI sids c ts →
      t.type? = some "fetch_stock_video" → t.output_id ∉ sids := by
  intro ts
  induction ts with
  | nil => intro c t ht; simp [pass3core] at ht
  | cons u rest ih =>
    intro c t ht hf
    by_cases hov : u.type? = some "overlay_video"
    · by_cases hc : c < maxI
      · rw [pass3core, if_pos hov, if_pos hc] at ht
        rcases List.mem_cons.mp ht with rfl | ht'
        · rw [hf] at hov
          simp at hov
        · exact ih (c + 1) t ht' hf
      · rw [pass3core, if_pos hov, if_neg hc] at ht
        exact ih (c + 1) t ht hf
    · by_cases hrm : u.type? = some "fetch_stock_video" ∧ u.output_id ∈ sids
      · rw [pass3core, if_neg hov, if_pos hrm] at ht
        exact ih c t ht hf
      · rw [pass3core, if_neg hov, if_neg hrm] at ht
        rcases List.mem_cons.mp ht with rfl | ht'
        · intro hs
          exact hrm ⟨hf, hs⟩
        · exact ih c t ht' hf

theorem pass3core_keeps (maxI : Nat) (sids : List (Option String)) :
    ∀ (ts : List RTask) (c : Nat) (t : RTask), t ∈ ts →
      ¬(t.type? = some "overlay_video") →
      ¬(t.type? = some "fetch_stock_video" ∧ t.output_id ∈ sids) →
      t ∈ pass3core maxI sids c ts := by
  intro ts
  induction ts with
  | nil => intro c t ht; simp at ht
  | cons u rest ih =>
    intro c t ht hto htf
    by_cases hov : u.type? = some "overlay_video"
    · by_cases hc : c < maxI
      · rw [pass3core, if_pos hov, if_pos hc]
        rcases List.mem_cons.mp ht with rfl | ht'
        · exact absurd hov hto
        · exact List.mem_cons_of_mem _ (ih (c + 1) t ht' hto htf)
      · rw [pass3core, if_pos hov, if_neg hc]
        rcases List.mem_cons.mp ht with rfl | ht'
        · exact absurd hov hto
        · exact ih (c + 1) t ht' hto htf
    · by_cases hrm : u.type? = some "fetch_stock_video" ∧ u.output_id ∈ sids
      · rw [pass3core, if_neg hov, if_pos hrm]
        rcases List.mem_cons.mp ht with rfl | ht'
        · exact absurd hrm htf
        · exact ih c t ht' hto htf
      · rw [pass3core, if_neg hov, if_neg hrm]
        rcases List.mem_cons.mp ht with rfl | ht'
        · exact List.mem_cons_self _ _
        · exact List.mem_cons_of_mem _ (ih c t ht' hto htf)

theorem pass3_over (rules : Rules) (ts : List RTask) (hwf : WellFormedPlan ts)
    (hcount : rules.max_inserts <
      (ts.filter (fun t => decide (t.type? = some "overlay_video"))).length) :
    pass3 rules ts =
      .ok (pass3core rules.max_inserts
        (((ts.filter (fun t => decide (t.type? = some "overlay_video"))).drop
            rules.max_inserts).map stockIdOf) 0 ts) := by
  have htypes : ∀ t ∈ ts, t.type?.isSome = true := fun t ht => (hwf t ht).1
  have hov := ovIdxE_eq 0 ts htypes
  have hlen : rules.max_inserts < (ovIdxFrom 0 ts).length := by
    rw [ovIdxFrom_length]; exact hcount
  have hparams : ∀ j ∈ (ovIdxFrom 0 ts).drop rules.max_inserts,
      (ts.getD j {}).params?.isSome = true := by
    intro j hj
    have hm := ovIdxFrom_mem ts 0 j (List.drop_subset _ _ hj)
    rw [Nat.sub_zero] at hm
    exact (hwf _ hm.2.1).2 hm.2.2
  have hsids := excessSidsE_eq ts ((ovIdxFrom 0 ts).drop rules.max_inserts) hparams
  have hM := ovIdxFrom_map_getD ts ts [] rfl
  have hmap : ((ovIdxFrom 0 ts).drop rules.max_inserts).map
      (fun j => stockIdOf (ts.getD j {})) =
      ((ts.filter (fun t => decide (t.type? = some "overlay_video"))).drop
        rules.max_inserts).map stockIdOf := by
    have e1 : ((ovIdxFrom 0 ts).drop rules.max_inserts).map
        (fun j => stockIdOf (ts.getD j {})) =
        (((ovIdxFrom 0 ts).map (fun j => ts.getD j {})).map stockIdOf).drop
          rules.max_inserts := by
      rw [List.map_drop, List.map_map]
      rfl
    rw [e1]
    have e2 : (ovIdxFrom 0 ts).map (fun j => ts.getD j {}) =
        ts.filter (fun t => decide (t.type? = some "overlay_video")) := hM
    rw [e2, ← List.map_drop]
  rw [hmap] at hsids
  have hfs := filterSnd_core rules.max_inserts ts
    (((ts.filter (fun t => decide (t.type? = some "overlay_video"))).drop
      rules.max_inserts).map stockIdOf) htypes ts [] rfl
  simp only [pass3, List.enum]
  rw [hov]
  simp only [Bind.bind, Except.bind]
  rw [if_pos hlen, hsids]
  exact hfs

/-- Claim C4 (amended): on a well-formed plan with more than `max_inserts`
overlays (fetch ids truthy and durations valid, so the earlier passes are
no-ops), the repairer keeps exactly the first `max_inserts` overlays by
position and removes exactly those `fetch_stock_video` tasks whose
`output_id` is among the stock ids referenced by the removed overlays —
even when a kept overlay references the same id; all other tasks survive.
Under the additional assumption that kept overlays reference none of the
removed overlays' stock ids (as in the five-pair scenario), every fetch
referenced by a kept overlay is retained. -/
theorem C4_truncation_amended (tasks : List RTask) (rules : Rules)
    (hwf : WellFormedPlan tasks) (hfetch : FetchIdsTruthy tasks)
    (hdur : OverlayDurValid rules tasks)
    (hcount : rules.max_inserts <
      (tasks.filter (fun t => decide (t.type? = some "overlay_video"))).length) :
    validate_and_fix_plan tasks rules =
      .ok (pass3core rules.max_inserts
        (((tasks.filter (fun t => decide (t.type? = some "overlay_video"))).drop
            rules.max_inserts).map stockIdOf) 0 tasks) ∧
    (pass3core rules.max_inserts
        (((tasks.filter (fun t => decide (t.type? = some "overlay_video"))).drop
            rules.max_inserts).map stockIdOf) 0 tasks).filter
        (fun t => decide (t.type? = some "overlay_video")) =
      (tasks.filter (fun t => decide (t.type? = some "overlay_video"))).take
        rules.max_inserts ∧
    (∀ t ∈ pass3core rules.max_inserts
        (((tasks.filter (fun t => decide (t.type? = some "overlay_video"))).drop
            rules.max_inserts).map stockIdOf) 0 tasks,
      t.type? = some "fetch_stock_video" →
      t.output_id ∉ ((tasks.filter (fun t => decide (t.type? = some "overlay_video"))).drop
          rules.max_inserts).map stockIdOf) ∧
    (∀ t ∈ tasks, t.type? = some "fetch_stock_video" →
      t.output_id ∉ ((tasks.filter (fun t => decide (t.type? = some "overlay_video"))).drop
          rules.max_inserts).map stockIdOf →
      t ∈ pass3core rules.max_inserts
        (((tasks.filter (fun t => decide (t.type? = some "overlay_video"))).drop
            rules.max_inserts).map stockIdOf) 0 tasks) ∧
    (∀ t ∈ tasks, ¬(t.type? = some "overlay_video") →
      ¬(t.type? = some "fetch_stock_video") →
      t ∈ pass3core rules.max_inserts
        (((tasks.filter (fun t => decide (t.type? = some "overlay_video"))).drop
            rules.max_inserts).map stockIdOf) 0 tasks) ∧
    ((∀ o ∈ (tasks.filter (fun t => decide (t.type? = some "overlay_video"))).take
        rules.max_inserts,
        stockIdOf o ∉ ((tasks.filter
          (fun t => decide (t.type? = some "overlay_video"))).drop
            rules.max_inserts).map stockIdOf) →
      ∀ t ∈ tasks, t.type? = some "fetch_stock_video" →
      (∃ o ∈ (tasks.filter (fun t => decide (t.type? = some "overlay_video"))).take
          rules.max_inserts, stockIdOf o = t.output_id) →
      t ∈ pass3core rules.max_inserts
        (((tasks.filter (fun t => decide (t.type? = some "overlay_video"))).drop
            rules.max_inserts).map stockIdOf) 0 tasks) := by
  have h1 := pass1go_noop tasks 0 (fun t ht => (hwf t ht).1) hfetch
  have h2 := pass2_noop rules tasks hwf hdur
  have h3 := pass3_over rules tasks hwf hcount
  refine ⟨?_, ?_, ?_, ?_, ?_, ?_⟩
  · simp [validate_and_fix_plan, h1, h2, h3, Bind.bind, Except.bind]
  · have := pass3core_filter rules.max_inserts
      (((tasks.filter (fun t => decide (t.type? = some "overlay_video"))).drop
        rules.max_inserts).map stockIdOf) tasks 0
    simpa using this
  · intro t ht hf
    exact pass3core_no_removed_fetch rules.max_inserts _ tasks 0 t ht hf
  · intro t ht hf hnot
    refine pass3core_keeps rules.max_inserts _ tasks 0 t ht ?_ ?_
    · rw [hf]; simp
    · rintro ⟨-, hs⟩
      exact hnot hs
  · intro t ht hto htf
    exact pass3core_keeps rules.max_inserts _ tasks 0 t ht hto
      (fun hc => htf hc.1)
  · intro hdisj t ht hf ⟨o, ho, hoid⟩
    refine pass3core_keeps rules.max_inserts _ tasks 0 t ht ?_ ?_
    · rw [hf]; simp
    · rintro ⟨-, hs⟩
      rw [← hoid] at hs
      exact hdisj o ho hs

/-! Claim C4. -/

/-- Claim C4 (counterexample): with `max_inserts = 3` and four overlays where
the first and fourth both reference stock id `s1`, the repairer keeps the
first three overlays but removes the fetch for `s1` even though the kept
first overlay still references it — refuting the claim that a fetch is
removed only when referenced solely by removed insertions. -/
theorem C4_truncation_counterexample :
    validate_and_fix_plan
        [fetchVid "s1" "q", fetchVid "s2" "q", fetchVid "s3" "q",
         overlayVid 10 14 "s1", overlayVid 25 29 "s2", overlayVid 40 44 "s3",
         overlayVid 50 54 "s1"] BROLL_RULES =
      .ok [fetchVid "s2" "q", fetchVid "s3" "q", overlayVid 10 14 "s1",
           overlayVid 25 29 "s2", overlayVid 40 44 "s3"] ∧
    overlayVid 10 14 "s1" ∈
      [fetchVid "s2" "q", fetchVid "s3" "q", overlayVid 10 14 "s1",
       overlayVid 25 29 "s2", overlayVid 40 44 "s3"] ∧
    stockIdOf (overlayVid 10 14 "s1") = some "s1" ∧
    (∀ t ∈ [fetchVid "s2" "q", fetchVid "s3" "q", overlayVid 10 14 "s1",
        overlayVid 25 29 "s2", overlayVid 40 44 "s3"],
      ¬(t.type? = some "fetch_stock_video" ∧ t.output_id = some "s1")) := by
  refine ⟨?_, ?_, ?_, ?_⟩
  · have h1 := pass1go_noop
      [fetchVid "s1" "q", fetchVid "s2" "q", fetchVid "s3" "q",
       overlayVid 10 14 "s1", overlayVid 25 29 "s2", overlayVid 40 44 "s3",
       overlayVid 50 54 "s1"] 0 (by decide) (by decide)
    have h2 := pass2_noop BROLL_RULES
      [fetchVid "s1" "q", fetchVid "s2" "q", fetchVid "s3" "q",
       overlayVid 10 14 "s1", overlayVid 25 29 "s2", overlayVid 40 44 "s3",
       overlayVid 50 54 "s1"] (by decide)
      (by norm_num [OverlayDurValid, overlayDur, fetchVid, overlayVid, BROLL_RULES])
    have h3 := pass3_over BROLL_RULES
      [fetchVid "s1" "q", fetchVid "s2" "q", fetchVid "s3" "q",
       overlayVid 10 14 "s1", overlayVid 25 29 "s2", overlayVid 40 44 "s3",
       overlayVid 50 54 "s1"] (by decide) (by decide)
    simp only [validate_and_fix_plan, h1, h2, h3, Bind.bind, Except.bind]
    rfl
  · simp
  · rfl
  · decide

/-- Witness for `C4_truncation_amended`: five fetch+overlay pairs under
`max_inserts = 3` repair to exactly the first three pairs. -/
theorem C4_truncation_amended_witness :
    validate_and_fix_plan
        [fetchVid "s1" "q", overlayVid 10 14 "s1", fetchVid "s2" "q", overlayVid 20 24 "s2",
         fetchVid "s3" "q", overlayVid 30 34 "s3", fetchVid "s4" "q", overlayVid 40 44 "s4",
         fetchVid "s5" "q", overlayVid 50 54 "s5"] BROLL_RULES =
      .ok [fetchVid "s1" "q", overlayVid 10 14 "s1", fetchVid "s2" "q", overlayVid 20 24 "s2",
           fetchVid "s3" "q", overlayVid 30 34 "s3"] := by
  have h := C4_truncation_amended
    [fetchVid "s1" "q", overlayVid 10 14 "s1", fetchVid "s2" "q", overlayVid 20 24 "s2",
     fetchVid "s3" "q", overlayVid 30 34 "s3", fetchVid "s4" "q", overlayVid 40 44 "s4",
     fetchVid "s5" "q", overlayVid 50 54 "s5"] BROLL_RULES (by decide) (by decide)
    (by norm_num [OverlayDurValid, overlayDur, fetchVid, overlayVid, BROLL_RULES]) (by decide)
  rw [h.1]
  rfl

/-! Helper lemmas for the slot-planner invariants. -/

theorem tenth_neg {a : ℚ} (ha : Tenth a) : Tenth (-a) := by
  obtain ⟨m, rfl⟩ := tenth_iff.mp ha
  exact tenth_iff.mpr ⟨-m, by push_cast; ring⟩

theorem tenth_sub {a b : ℚ} (ha : Tenth a) (hb : Tenth b) : Tenth (a - b) := by
  rw [sub_eq_add_neg]
  exact tenth_add ha (tenth_neg hb)

theorem chain'_take {α : Type} {R : α → α → Prop} {l : List α} (h : List.Chain' R l)
    (n : Nat) : List.Chain' R (l.take n) :=
  h.prefix (List.take_prefix n l)

theorem nearestTo_pick (mid : ℚ) :
    ∀ (rest : List ℚ) (b : ℚ),
      rest.foldl (fun best x => if |x - mid| < |best - mid| then x else best) b ∈ b :: rest := by
  intro rest
  induction rest with
  | nil => intro b; simp
  | cons x rest' ih =>
    intro b
    simp only [List.foldl_cons]
    by_cases h : |x - mid| < |b - mid|
    · rw [if_pos h]
      rcases List.mem_cons.mp (ih x) with h' | h'
      · rw [h']; simp
      · exact List.mem_cons_of_mem _ (List.mem_cons_of_mem _ h')
    · rw [if_neg h]
      rcases List.mem_cons.mp (ih b) with h' | h'
      · rw [h']; simp
      · exact List.mem_cons_of_mem _ (List.mem_cons_of_mem _ h')

theorem nearestTo_mem (mid : ℚ) :
    ∀ (l : List ℚ) (x : ℚ), nearestTo mid l = some x → x ∈ l := by
  intro l x h
  cases l with
  | nil => simp [nearestTo] at h
  | cons b rest =>
    rw [nearestTo, Option.some.injEq] at h
    rw [← h]
    exact nearestTo_pick mid rest b

/-- Case analysis on the clamped end time `vafEnd2`: it is either the rounded
minimum-duration end, the rounded maximum-duration end, or an end whose
distance to the clamped start already lies within the duration bounds. -/
theorem vafEnd2_cases (rules : Rules) (avoid_end target : ℚ) (slot : RawSlot) :
    vafEnd2 rules avoid_end target slot
        = roundTo1 (max slot.start rules.avoid_first + rules.min_duration) ∨
    vafEnd2 rules avoid_end target slot
        = roundTo1 (max slot.start rules.avoid_first + rules.max_duration) ∨
    (rules.min_duration ≤ vafEnd2 rules avoid_end target slot - max slot.start rules.avoid_first ∧
     vafEnd2 rules avoid_end target slot - max slot.start rules.avoid_first ≤ rules.max_duration) := by
  simp only [vafEnd2]
  split_ifs with h1 h2
  · left; rfl
  · right; left; rfl
  · right; right
    push_neg at h1 h2
    exact ⟨h1, h2⟩

/-- The slot appended by `vafStep` outside the gap branch satisfies the slot
invariant with slack 1/20 on the end bound. -/
theorem newSlot_ok (rules : Rules) (avoid_end target : ℚ) (slot : RawSlot)
    (hr : RulesOk rules)
    (hbound : vafEnd2 rules avoid_end target slot ≤ avoid_end) :
    SlotOkP rules avoid_end (1/20)
      ⟨roundTo1 (max slot.start rules.avoid_first),
       roundTo1 (vafEnd2 rules avoid_end target slot)⟩ := by
  obtain ⟨htm, htM, htaf, htg, hm0, hmm, hg0⟩ := hr
  set s1 := max slot.start rules.avoid_first with hs1
  set e2 := vafEnd2 rules avoid_end target slot with he2
  have haf : rules.avoid_first ≤ roundTo1 s1 := by
    have := roundTo1_mono (le_max_right slot.start rules.avoid_first)
    rwa [roundTo1_eq_of_tenth htaf] at this
  have hstop : roundTo1 e2 ≤ avoid_end + 1/20 := by
    have := roundTo1_le e2
    linarith
  have hdur : rules.min_duration ≤ roundTo1 e2 - roundTo1 s1 ∧
      roundTo1 e2 - roundTo1 s1 ≤ rules.max_duration := by
    rcases vafEnd2_cases rules avoid_end target slot with hc | hc | hc
    · rw [← he2] at hc
      rw [hc, roundTo1_add_tenth s1 htm,
        roundTo1_eq_of_tenth (tenth_add (tenth_roundTo1 s1) htm)]
      constructor <;> linarith
    · rw [← he2] at hc
      rw [hc, roundTo1_add_tenth s1 htM,
        roundTo1_eq_of_tenth (tenth_add (tenth_roundTo1 s1) htM)]
      constructor <;> linarith
    · rw [← he2, ← hs1] at hc
      obtain ⟨hlo, hhi⟩ := hc
      have h1 := roundTo1_gt e2
      have h2 := roundTo1_le e2
      have h3 := roundTo1_gt s1
      have h4 := roundTo1_le s1
      have htd : Tenth (roundTo1 e2 - roundTo1 s1) :=
        tenth_sub (tenth_roundTo1 _) (tenth_roundTo1 _)
      constructor
      · exact tenth_le_of_lt htd htm (by linarith)
      · exact tenth_le_of_lt htM htd (by linarith)
  exact ⟨tenth_roundTo1 _, tenth_roundTo1 _, hdur.1, hdur.2, haf, hstop⟩

/-- The slot appended by the gap branch (previous slot too close): it starts
exactly `min_gap` after the previous slot ends and has duration
`roundTo1 target`. -/
theorem gapSlot_ok (rules : Rules) (avoid_end target slack : ℚ) (hr : RulesOk rules)
    (hslack : 0 ≤ slack)
    (htar1 : rules.min_duration ≤ target) (htar2 : target ≤ rules.max_duration)
    (last : Slot) (hlast : SlotOkP rules avoid_end slack last)
    {s2 e3 : ℚ}
    (hs2 : s2 = roundTo1 (last.stop + rules.min_gap))
    (he3 : e3 = roundTo1 (s2 + target))
    (hbound : e3 ≤ avoid_end) :
    SlotOkP rules avoid_end slack ⟨s2, e3⟩ ∧ gapChain rules.min_gap last ⟨s2, e3⟩ := by
  obtain ⟨htm, htM, htaf, htg, hm0, hmm, hg0⟩ := hr
  obtain ⟨hts, hte, hdlo, hdhi, hafl, hstopl⟩ := hlast
  have hs2' : s2 = last.stop + rules.min_gap := by
    rw [hs2, roundTo1_eq_of_tenth (tenth_add hte htg)]
  have hts2 : Tenth s2 := hs2 ▸ tenth_roundTo1 _
  have hdur : e3 - s2 = roundTo1 target := by
    rw [he3, add_comm s2 target, roundTo1_add_tenth target hts2]
    ring
  have htlo : rules.min_duration ≤ roundTo1 target := by
    have := roundTo1_mono htar1
    rwa [roundTo1_eq_of_tenth htm] at this
  have hthi : roundTo1 target ≤ rules.max_duration := by
    have := roundTo1_mono htar2
    rwa [roundTo1_eq_of_tenth htM] at this
  refine ⟨⟨hts2, he3 ▸ tenth_roundTo1 _, ?_, ?_, ?_, by linarith⟩, ?_⟩
  · rw [hdur]; exact htlo
  · rw [hdur]; exact hthi
  · simp only
    linarith [hs2']
  · show last.stop + rules.min_gap ≤ s2
    rw [hs2']

/-- Any slot emitted by one iteration of the clamp-and-fix loop satisfies the
slot invariant with slack 1/20 and keeps the min-gap to the accumulator's last
slot. -/
theorem vafStep_ok (rules : Rules) (avoid_end target : ℚ) (acc : List Slot)
    (slot : RawSlot) (s : Slot) (hr : RulesOk rules)
    (htar1 : rules.min_duration ≤ target) (htar2 : target ≤ rules.max_duration)
    (hlast : ∀ last, acc.getLast? = some last → SlotOkP rules avoid_end (1/20) last)
    (h : vafStep rules avoid_end target acc slot = some s) :
    SlotOkP rules avoid_end (1/20) s ∧
      ∀ last, acc.getLast? = some last → gapChain rules.min_gap last s := by
  simp only [vafStep] at h
  split at h
  · exact absurd h (by simp)
  rename_i hskip
  push_neg at hskip
  split at h
  · rename_i last hlastEq
    have hlOk := hlast last hlastEq
    split at h
    · rename_i hclose
      split at h
      · exact absurd h (by simp)
      rename_i hend3
      push_neg at hend3
      rw [Option.some.injEq] at h
      subst h
      have hts2 : Tenth (roundTo1 (last.stop + rules.min_gap)) := tenth_roundTo1 _
      have hte3 : Tenth (roundTo1 (roundTo1 (last.stop + rules.min_gap) + target)) :=
        tenth_roundTo1 _
      have hkey := gapSlot_ok rules avoid_end target (1/20) hr (by norm_num) htar1 htar2
        last hlOk (rfl :
          roundTo1 (last.stop + rules.min_gap) = roundTo1 (last.stop + rules.min_gap))
        (rfl : roundTo1 (roundTo1 (last.stop + rules.min_gap) + target)
          = roundTo1 (roundTo1 (last.stop + rules.min_gap) + target)) hend3
      have hcollapse :
          (⟨roundTo1 (roundTo1 (last.stop + rules.min_gap)),
            roundTo1 (roundTo1 (roundTo1 (last.stop + rules.min_gap) + target))⟩ : Slot)
          = ⟨roundTo1 (last.stop + rules.min_gap),
             roundTo1 (roundTo1 (last.stop + rules.min_gap) + target)⟩ := by
        rw [roundTo1_eq_of_tenth hts2, roundTo1_eq_of_tenth hte3]
      rw [hcollapse]
      refine ⟨hkey.1, ?_⟩
      intro last' hl'
      rw [hlastEq, Option.some.injEq] at hl'
      subst hl'
      exact hkey.2
    · rename_i hfar
      push_neg at hfar
      rw [Option.some.injEq] at h
      subst h
      refine ⟨newSlot_ok rules avoid_end target slot hr hskip.2, ?_⟩
      intro last' hl'
      rw [hlastEq, Option.some.injEq] at hl'
      subst hl'
      show last.stop + rules.min_gap ≤ roundTo1 (max slot.start rules.avoid_first)
      obtain ⟨htm, htM, htaf, htg, hm0, hmm, hg0⟩ := hr
      obtain ⟨hts, hte, _, _, _, _⟩ := hlOk
      have := roundTo1_mono hfar
      rwa [roundTo1_eq_of_tenth (tenth_add hte htg)] at this
  · rename_i hlastEq
    rw [Option.some.injEq] at h
    subst h
    refine ⟨newSlot_ok rules avoid_end target slot hr hskip.2, ?_⟩
    intro last' hl'
    rw [hlastEq] at hl'
    exact absurd hl' (by simp)

theorem getLast?_mem {α : Type} {l : List α} {a : α} (h : l.getLast? = some a) :
    a ∈ l := by
  obtain ⟨hne, ha⟩ := List.mem_getLast?_eq_getLast (Option.mem_def.mpr h)
  rw [ha]
  exact List.getLast_mem hne

theorem vafGo_cons (rules : Rules) (avoid_end target : ℚ) (slot : RawSlot)
    (rest : List RawSlot) (acc : List Slot) :
    vafGo rules avoid_end target (slot :: rest) acc =
      match vafStep rules avoid_end target acc slot with
      | none => vafGo rules avoid_end target rest acc
      | some s => vafGo rules avoid_end target rest (acc ++ [s]) := rfl

/-- The clamp-and-fix loop preserves the slot invariant and the min-gap
chain. -/
theorem vafGo_inv (rules : Rules) (avoid_end target : ℚ) (hr : RulesOk rules)
    (htar1 : rules.min_duration ≤ target) (htar2 : target ≤ rules.max_duration) :
    ∀ (raw : List RawSlot) (acc : List Slot),
      (∀ s ∈ acc, SlotOkP rules avoid_end (1/20) s) →
      List.Chain' (gapChain rules.min_gap) acc →
      (∀ s ∈ vafGo rules avoid_end target raw acc, SlotOkP rules avoid_end (1/20) s) ∧
      List.Chain' (gapChain rules.min_gap) (vafGo rules avoid_end target raw acc) := by
  intro raw
  induction raw with
  | nil => intro acc h1 h2; exact ⟨h1, h2⟩
  | cons slot rest ih =>
    intro acc h1 h2
    cases hstep : vafStep rules avoid_end target acc slot with
    | none =>
      rw [vafGo_cons, hstep]
      exact ih acc h1 h2
    | some s =>
      have hs := vafStep_ok rules avoid_end target acc slot s hr htar1 htar2
        (fun last hl => h1 last (getLast?_mem hl)) hstep
      have h1' : ∀ x ∈ acc ++ [s], SlotOkP rules avoid_end (1/20) x := by
        intro x hx
        rcases List.mem_append.mp hx with hx | hx
        · exact h1 x hx
        · rw [List.mem_singleton.mp hx]; exact hs.1
      have h2' : List.Chain' (gapChain rules.min_gap) (acc ++ [s]) := by
        rw [List.chain'_append]
        refine ⟨h2, List.chain'_singleton s, ?_⟩
        intro x hx y hy
        rw [List.head?_cons, Option.mem_def, Option.some.injEq] at hy
        rw [← hy]
        exact hs.2 x hx
      rw [vafGo_cons, hstep]
      exact ih (acc ++ [s]) h1' h2'

theorem snap_lb (S L : ℚ) (hL : 0 ≤ L) (bs : List ℚ) (hbs : ∀ b ∈ bs, S ≤ b) :
    S ≤ (nearestTo ((S + (S + L)) / 2) bs).getD ((S + (S + L)) / 2) := by
  cases hb : nearestTo ((S + (S + L)) / 2) bs with
  | none => simp only [Option.getD_none]; linarith
  | some b => simpa using hbs b (nearestTo_mem _ bs b hb)

/-- The snap point of section `i` lies at or after `valid_start`. -/
theorem fbsSnap_lb (segs : List Segment) (valid_start section_len : ℚ) (i : Nat)
    (hlen : 0 ≤ section_len) :
    valid_start ≤ fbsSnap segs valid_start section_len i := by
  have hss : valid_start ≤ valid_start + (i : ℚ) * section_len := by
    have : 0 ≤ (i : ℚ) * section_len := mul_nonneg (by positivity) hlen
    linarith
  have h := snap_lb (valid_start + (i : ℚ) * section_len) section_len hlen
    ((segs.map (·.stop)).filter
      (fun b => decide (valid_start + (i : ℚ) * section_len ≤ b) &&
        decide (b ≤ valid_start + (i : ℚ) * section_len + section_len)))
    (fun b hb => by
      have := (List.mem_filter.mp hb).2
      simp only [Bool.and_eq_true, decide_eq_true_eq] at this
      exact this.1)
  simp only [fbsSnap]
  linarith

/-- Case analysis on the candidate slot of one `find_broll_slots` iteration:
either it is a rounded snap point at or after `valid_start` respecting the
gap to the last slot, or it is the gap-pushed slot after the last slot. -/
theorem fbsCand_ok (segs : List Segment) (valid_start section_len target gap : ℚ)
    (i : Nat) (acc : List Slot) (hlen : 0 ≤ section_len) :
    (∃ x, valid_start ≤ x ∧
       fbsCand segs valid_start section_len target gap i acc =
         (roundTo1 x, roundTo1 (roundTo1 x + target)) ∧
       ∀ last, acc.getLast? = some last → last.stop + gap ≤ roundTo1 x) ∨
    (∃ last, acc.getLast? = some last ∧
       fbsCand segs valid_start section_len target gap i acc =
         (roundTo1 (last.stop + gap), roundTo1 (roundTo1 (last.stop + gap) + target))) := by
  have hsnap := fbsSnap_lb segs valid_start section_len i hlen
  cases hlg : acc.getLast? with
  | none =>
    left
    refine ⟨fbsSnap segs valid_start section_len i, hsnap, ?_, by simp [hlg]⟩
    simp only [fbsCand, hlg]
  | some last =>
    by_cases hclose :
        roundTo1 (fbsSnap segs valid_start section_len i) < last.stop + gap
    · right
      refine ⟨last, rfl, ?_⟩
      simp only [fbsCand, hlg, if_pos hclose]
    · left
      refine ⟨fbsSnap segs valid_start section_len i, hsnap, ?_, ?_⟩
      · simp only [fbsCand, hlg, if_neg hclose]
      · intro last2 hl2
        rw [Option.some.injEq] at hl2
        subst hl2
        exact le_of_not_lt hclose

/-- Any slot emitted by one iteration of the deterministic planner loop
satisfies the slot invariant exactly (slack 0) and keeps the min-gap to the
accumulator's last slot. -/
theorem fbsStep_ok (rules : Rules) (segs : List Segment)
    (section_len avoid_end target : ℚ) (i : Nat) (acc : List Slot) (s : Slot)
    (hr : RulesOk rules)
    (htar1 : rules.min_duration ≤ target) (htar2 : target ≤ rules.max_duration)
    (hlen : 0 ≤ section_len)
    (hlast : ∀ last, acc.getLast? = some last → SlotOkP rules avoid_end 0 last)
    (h : fbsStep segs rules.avoid_first section_len avoid_end target rules.min_gap i acc
      = some s) :
    SlotOkP rules avoid_end 0 s ∧
      ∀ last, acc.getLast? = some last → gapChain rules.min_gap last s := by
  obtain ⟨htm, htM, htaf, htg, hm0, hmm, hg0⟩ := hr
  have htlo : rules.min_duration ≤ roundTo1 target := by
    have := roundTo1_mono htar1
    rwa [roundTo1_eq_of_tenth htm] at this
  have hthi : roundTo1 target ≤ rules.max_duration := by
    have := roundTo1_mono htar2
    rwa [roundTo1_eq_of_tenth htM] at this
  simp only [fbsStep] at h
  split at h
  · exact absurd h (by simp)
  rename_i hbound
  push_neg at hbound
  rw [Option.some.injEq] at h
  subst h
  rcases fbsCand_ok segs rules.avoid_first section_len target rules.min_gap i acc hlen with
    ⟨x, hx, hcand, hlink⟩ | ⟨last, hlg, hcand⟩
  · rw [hcand] at hbound ⊢
    have hdur : roundTo1 (roundTo1 x + target) - roundTo1 x = roundTo1 target := by
      rw [add_comm (roundTo1 x) target, roundTo1_add_tenth target (tenth_roundTo1 x)]
      ring
    have haf : rules.avoid_first ≤ roundTo1 x := by
      have := roundTo1_mono hx
      rwa [roundTo1_eq_of_tenth htaf] at this
    refine ⟨⟨tenth_roundTo1 _, tenth_roundTo1 _, ?_, ?_, haf, ?_⟩, ?_⟩
    · simp only; rw [hdur]; exact htlo
    · simp only; rw [hdur]; exact hthi
    · simpa using hbound
    · intro last hl
      exact hlink last hl
  · have hlOk := hlast last hlg
    obtain ⟨hts, hte, hdlo, hdhi, hafl, hstopl⟩ := hlOk
    have hs2 : roundTo1 (last.stop + rules.min_gap) = last.stop + rules.min_gap :=
      roundTo1_eq_of_tenth (tenth_add hte htg)
    rw [hcand] at hbound ⊢
    have hdur : roundTo1 (roundTo1 (last.stop + rules.min_gap) + target)
        - roundTo1 (last.stop + rules.min_gap) = roundTo1 target := by
      rw [add_comm (roundTo1 (last.stop + rules.min_gap)) target,
        roundTo1_add_tenth target (tenth_roundTo1 _)]
      ring
    refine ⟨⟨tenth_roundTo1 _, tenth_roundTo1 _, ?_, ?_, ?_, ?_⟩, ?_⟩
    · simp only; rw [hdur]; exact htlo
    · simp only; rw [hdur]; exact hthi
    · simp only
      rw [hs2]
      linarith
    · simpa using hbound
    · intro last2 hl2
      rw [hlg, Option.some.injEq] at hl2
      subst hl2
      show last.stop + rules.min_gap ≤ roundTo1 (last.stop + rules.min_gap)
      rw [hs2]

theorem fbsGo_cons (segs : List Segment) (valid_start section_len avoid_end target gap : ℚ)
    (i r : Nat) (acc : List Slot) :
    fbsGo segs valid_start section_len avoid_end target gap i (r + 1) acc =
      match fbsStep segs valid_start section_len avoid_end target gap i acc with
      | none => acc
      | some s => fbsGo segs valid_start section_len avoid_end target gap (i + 1) r (acc ++ [s]) := rfl

/-- The deterministic planner loop preserves the slot invariant and the
min-gap chain, and appends at most one slot per remaining iteration. -/
theorem fbsGo_inv (rules : Rules) (segs : List Segment)
    (section_len avoid_end target : ℚ) (hr : RulesOk rules)
    (htar1 : rules.min_duration ≤ target) (htar2 : target ≤ rules.max_duration)
    (hlen : 0 ≤ section_len) :
    ∀ (r i : Nat) (acc : List Slot),
      (∀ s ∈ acc, SlotOkP rules avoid_end 0 s) →
      List.Chain' (gapChain rules.min_gap) acc →
      (∀ s ∈ fbsGo segs rules.avoid_first section_len avoid_end target rules.min_gap i r acc,
        SlotOkP rules avoid_end 0 s) ∧
      List.Chain' (gapChain rules.min_gap)
        (fbsGo segs rules.avoid_first section_len avoid_end target rules.min_gap i r acc) ∧
      (fbsGo segs rules.avoid_first section_len avoid_end target rules.min_gap i r acc).length
        ≤ acc.length + r := by
  intro r
  induction r with
  | zero => intro i acc h1 h2; exact ⟨h1, h2, by simp [fbsGo]⟩
  | succ r ih =>
    intro i acc h1 h2
    cases hstep : fbsStep segs rules.avoid_first section_len avoid_end target rules.min_gap i acc with
    | none =>
      simp only [fbsGo_cons, hstep]
      exact ⟨h1, h2, by omega⟩
    | some s =>
      have hs := fbsStep_ok rules segs section_len avoid_end target i acc s hr htar1 htar2
        hlen (fun last hl => h1 last (getLast?_mem hl)) hstep
      have h1' : ∀ x ∈ acc ++ [s], SlotOkP rules avoid_end 0 x := by
        intro x hx
        rcases List.mem_append.mp hx with hx | hx
        · exact h1 x hx
        · rw [List.mem_singleton.mp hx]; exact hs.1
      have h2' : List.Chain' (gapChain rules.min_gap) (acc ++ [s]) := by
        rw [List.chain'_append]
        refine ⟨h2, List.chain'_singleton s, ?_⟩
        intro x hx y hy
        rw [List.head?_cons, Option.mem_def, Option.some.injEq] at hy
        rw [← hy]
        exact hs.2 x hx
      simp only [fbsGo_cons, hstep]
      have := ih (i + 1) (acc ++ [s]) h1' h2'
      refine ⟨this.1, this.2.1, ?_⟩
      have hl := this.2.2
      simp only [List.length_append, List.length_singleton] at hl
      omega

theorem rulesOk_BROLL : RulesOk BROLL_RULES :=
  ⟨tenth_iff.mpr ⟨40, by norm_num [BROLL_RULES]⟩,
   tenth_iff.mpr ⟨50, by norm_num [BROLL_RULES]⟩,
   tenth_iff.mpr ⟨60, by norm_num [BROLL_RULES]⟩,
   tenth_iff.mpr ⟨100, by norm_num [BROLL_RULES]⟩,
   by norm_num [BROLL_RULES], by norm_num [BROLL_RULES], by norm_num [BROLL_RULES]⟩

set_option maxHeartbeats 2000000 in
/-- C5: counterexample.  On the raw slot `{start: 47.8, end: 52.28}` with
video duration 60.29 and the default rules, `_validate_and_fix_slots`
returns a slot ending at 52.3, which exceeds `duration - avoid_last = 52.29`:
the range check uses the pre-rounding end, and the final `round(..., 1)` can
push the end past the bound, so the claimed `end ≤ duration - avoid_last`
fails. -/
theorem C5_slots_counterexample :
    ∃ s ∈ _validate_and_fix_slots [{ start := 239/5, stop? := some (1307/25) }]
        (6029/100) BROLL_RULES,
      ¬ s.stop ≤ 6029/100 - BROLL_RULES.avoid_last := by
  refine ⟨⟨239/5, 523/10⟩, ?_, by norm_num [BROLL_RULES]⟩
  have hres : _validate_and_fix_slots [{ start := 239/5, stop? := some (1307/25) }]
      (6029/100) BROLL_RULES = [⟨239/5, 523/10⟩] := by
    norm_num [_validate_and_fix_slots, vafGo, vafStep, vafEnd2, sortByStart, insertByStart,
      BROLL_RULES, roundTo1, round_eq, max_def, min_def]
  rw [hres]
  simp

/-- C5 (amended): for every rule set whose timing values are multiples of
0.1 with ordered nonnegative durations and nonnegative gap (`RulesOk`, true
of `BROLL_RULES`), every video duration, and arbitrary inputs: each slot
returned by the clamp-and-fix pass satisfies the duration bounds, the
`avoid_first` lower bound and the end bound weakened by 0.05 (the final
rounding may overshoot, see the counterexample); consecutive slots keep
`min_gap`; at most `max_inserts` slots are returned.  The deterministic
planner satisfies the same with the exact end bound. -/
theorem C5_slots_amended (rules : Rules) (duration : ℚ) (hr : RulesOk rules)
    (raw_slots : List RawSlot) (segments : List Segment) :
    (SlotsGood rules duration (1/20) (_validate_and_fix_slots raw_slots duration rules) ∧
      (_validate_and_fix_slots raw_slots duration rules).length ≤ rules.max_inserts) ∧
    (SlotsGood rules duration 0 (find_broll_slots segments duration rules) ∧
      (find_broll_slots segments duration rules).length ≤ rules.max_inserts) := by
  obtain ⟨htm, htM, htaf, htg, hm0, hmm, hg0⟩ := hr
  have htar1 : rules.min_duration ≤ (rules.min_duration + rules.max_duration) / 2 := by
    linarith
  have htar2 : (rules.min_duration + rules.max_duration) / 2 ≤ rules.max_duration := by
    linarith
  constructor
  · have hmain := vafGo_inv rules (duration - rules.avoid_last)
      ((rules.min_duration + rules.max_duration) / 2)
      ⟨htm, htM, htaf, htg, hm0, hmm, hg0⟩ htar1 htar2
      (sortByStart raw_slots) [] (by simp) (by simp)
    refine ⟨⟨?_, ?_⟩, ?_⟩
    · intro s hs
      simp only [_validate_and_fix_slots] at hs
      exact hmain.1 s (List.mem_of_mem_take hs)
    · simp only [_validate_and_fix_slots]
      exact chain'_take hmain.2 _
    · simp only [_validate_and_fix_slots]
      exact List.length_take_le _ _
  · simp only [find_broll_slots]
    split_ifs with hcond
    · refine ⟨⟨?_, ?_⟩, ?_⟩ <;> simp
    · push_neg at hcond
      have hlen : 0 ≤ (duration - rules.avoid_last -
          (rules.min_duration + rules.max_duration) / 2 - rules.avoid_first) /
          (rules.max_inserts : ℚ) := by
        apply div_nonneg
        · linarith [hcond.1]
        · positivity
      have hmain := fbsGo_inv rules segments
        ((duration - rules.avoid_last -
          (rules.min_duration + rules.max_duration) / 2 - rules.avoid_first) /
          (rules.max_inserts : ℚ))
        (duration - rules.avoid_last) ((rules.min_duration + rules.max_duration) / 2)
        ⟨htm, htM, htaf, htg, hm0, hmm, hg0⟩ htar1 htar2 hlen
        rules.max_inserts 0 [] (by simp) (by simp)
      refine ⟨⟨hmain.1, hmain.2.1⟩, by simpa using hmain.2.2⟩

/-- Witness for `C5_slots_amended` at the default rule set, duration 60 and
concrete inputs. -/
theorem C5_slots_amended_witness :
    RulesOk BROLL_RULES ∧
    ((SlotsGood BROLL_RULES 60 (1/20)
        (_validate_and_fix_slots [{ start := 10, stop? := some (29/2) }] 60 BROLL_RULES) ∧
      (_validate_and_fix_slots [{ start := 10, stop? := some (29/2) }] 60 BROLL_RULES).length
        ≤ BROLL_RULES.max_inserts) ∧
     (SlotsGood BROLL_RULES 60 0 (find_broll_slots [⟨0, 60, "a"⟩] 60 BROLL_RULES) ∧
      (find_broll_slots [⟨0, 60, "a"⟩] 60 BROLL_RULES).length ≤ BROLL_RULES.max_inserts)) :=
  ⟨rulesOk_BROLL,
   C5_slots_amended BROLL_RULES 60 rulesOk_BROLL [{ start := 10, stop? := some (29/2) }]
     [⟨0, 60, "a"⟩]⟩
